import Mathlib

/-!
Verification development for the uC compiler core.

This file gives a shallow embedding of the parts of the compiler that the
specification's claims are about: the symbol table and the typing rules of
the semantic analyser (uc_sema.py / uc_type.py), the CFG-building IR
generator (uc_code.py), and the dataflow optimiser (uc_analysis.py).
Python strings are modelled as lists of characters, Python dicts as
insertion-ordered association lists, Python integers as `Int`, and code
that can raise (KeyError / ValueError / IndexError) returns `Option`.
-/

namespace UC

/-- Python strings, as lists of characters. -/
abbrev Str := List Char

/-- Python `s.startswith(p)`. -/
def startswith : Str → Str → Bool
  | _, [] => true
  | [], _ :: _ => false
  | c :: cs, p :: ps => if c = p then startswith cs ps else false

@[simp] theorem startswith_nil (s : Str) : startswith s [] = true := by
  cases s <;> rfl

theorem startswith_cons {c p : Char} {cs ps : Str} :
    startswith (c :: cs) (p :: ps) = true ↔ c = p ∧ startswith cs ps = true := by
  simp only [startswith]
  by_cases h : c = p <;> simp [h]

/-- Two prefixes of the same string are comparable. -/
theorem startswith_total : ∀ (s p q : Str),
    startswith s p = true → startswith s q = true →
    startswith p q = true ∨ startswith q p = true := by
  intro s
  induction s with
  | nil =>
    intro p q hp hq
    cases p with
    | nil => right; simp
    | cons a as => simp [startswith] at hp
  | cons c cs ih =>
    intro p q hp hq
    cases p with
    | nil => right; simp
    | cons a as =>
      cases q with
      | nil => left; simp
      | cons b bs =>
        rw [startswith_cons] at hp hq
        obtain ⟨rfl, hp2⟩ := hp
        obtain ⟨rfl, hq2⟩ := hq
        rcases ih as bs hp2 hq2 with h | h
        · left; rw [startswith_cons]; exact ⟨rfl, h⟩
        · right; rw [startswith_cons]; exact ⟨rfl, h⟩

theorem startswith_false_of_incomp {p q : Str}
    (h : ¬ (startswith p q = true ∨ startswith q p = true)) {s : Str}
    (hs : startswith s p = true) : startswith s q = false := by
  cases hq : startswith s q
  · rfl
  · exact absurd (startswith_total s p q hs hq) h

/-! ### Insertion-ordered dictionaries (Python `dict`) -/

section Dict

variable {K V : Type} [DecidableEq K]

/-- `d.get(k, None)`. -/
def dictGet : List (K × V) → K → Option V
  | [], _ => none
  | (k', v) :: t, k => if k = k' then some v else dictGet t k

/-- `d[k] = v`: replaces in place, or appends a new entry at the end
(Python dicts preserve insertion order). -/
def dictSet : List (K × V) → K → V → List (K × V)
  | [], k, v => [(k, v)]
  | (k', v') :: t, k, v => if k = k' then (k, v) :: t else (k', v') :: dictSet t k v

@[simp] theorem dictGet_dictSet_self (l : List (K × V)) (k : K) (v : V) :
    dictGet (dictSet l k v) k = some v := by
  induction l with
  | nil => simp [dictGet, dictSet]
  | cons p t ih =>
    obtain ⟨k', v'⟩ := p
    by_cases h : k = k' <;> simp [dictGet, dictSet, h, ih]

theorem dictGet_dictSet_ne (l : List (K × V)) {k k' : K} (v : V) (h : k' ≠ k) :
    dictGet (dictSet l k v) k' = dictGet l k' := by
  induction l with
  | nil => simp [dictGet, dictSet, h]
  | cons p t ih =>
    obtain ⟨k1, v1⟩ := p
    by_cases h1 : k = k1
    · subst h1
      simp [dictGet, dictSet, h]
    · by_cases h2 : k' = k1 <;> simp [dictGet, dictSet, h1, h2, ih]

/-- Keys of a dictionary, in order. -/
def dictKeys (l : List (K × V)) : List K := l.map Prod.fst

@[simp] theorem dictKeys_nil : dictKeys ([] : List (K × V)) = [] := rfl

@[simp] theorem dictKeys_cons (k1 : K) (v1 : V) (t : List (K × V)) :
    dictKeys ((k1, v1) :: t) = k1 :: dictKeys t := rfl

theorem dictKeys_dictSet (l : List (K × V)) (k : K) (v : V) (h : k ∈ dictKeys l) :
    dictKeys (dictSet l k v) = dictKeys l := by
  induction l with
  | nil => simp at h
  | cons p t ih =>
    obtain ⟨k1, v1⟩ := p
    by_cases h1 : k = k1
    · simp [dictSet, h1]
    · rw [dictKeys_cons, List.mem_cons] at h
      rcases h with h | h
      · exact absurd h h1
      · simp [dictSet, h1, ih h]

theorem dictSet_length_of_mem (l : List (K × V)) (k : K) (v : V)
    (h : k ∈ dictKeys l) : (dictSet l k v).length = l.length := by
  have := dictKeys_dictSet l k v h
  have h2 : (dictKeys (dictSet l k v)).length = (dictKeys l).length := by rw [this]
  simpa [dictKeys] using h2

theorem dictSet_length_le (l : List (K × V)) (k : K) (v : V) :
    (dictSet l k v).length ≤ l.length + 1 := by
  induction l with
  | nil => simp [dictSet]
  | cons p t ih =>
    obtain ⟨k1, v1⟩ := p
    by_cases h1 : k = k1 <;> simp [dictSet, h1] <;> omega

theorem mem_dictKeys_dictSet_of_mem (l : List (K × V)) (k k' : K) (v : V)
    (h : k' ∈ dictKeys l) : k' ∈ dictKeys (dictSet l k v) := by
  induction l with
  | nil => simp at h
  | cons p t ih =>
    obtain ⟨k1, v1⟩ := p
    rw [dictKeys_cons, List.mem_cons] at h
    by_cases h1 : k = k1
    · subst h1
      rcases h with h | h <;> simp [dictSet, h]
    · rcases h with h | h
      · simp [dictSet, h1, h]
      · simp [dictSet, h1, List.mem_cons, ih h]

theorem self_mem_dictKeys_dictSet (l : List (K × V)) (k : K) (v : V) :
    k ∈ dictKeys (dictSet l k v) := by
  induction l with
  | nil => simp [dictSet]
  | cons p t ih =>
    obtain ⟨k1, v1⟩ := p
    by_cases h1 : k = k1 <;> simp [dictSet, h1, List.mem_cons, ih]

end Dict

/-! ### uCIR instructions -/

/-- An operand of a uCIR instruction tuple: a string, an integer, or
(for `define`) a list of `(typename, temporary)` pairs. -/
inductive Opnd where
  | s (v : Str)
  | i (v : Int)
  | ps (v : List (Str × Str))
deriving DecidableEq

/-- A uCIR instruction is a tuple of operands; index 0 is the opcode. -/
abbrev Inst := List Opnd

/-- `inst[0]` viewed as a string (the opcode). -/
def op0 (inst : Inst) : Str :=
  match inst with
  | .s v :: _ => v
  | _ => []

/-- `inst[k]`. -/
def arg (inst : Inst) (k : Nat) : Opnd := inst.getD k (.s [])

/-! ### Dataflow stage (uc_analysis.py)

Blocks are modelled in `next_block` order as a list; the dataflow sets
that the reaching-definition and live-variable solvers store on a block
(`in_RD`, `out_set`, `used`) are plain fields, so every theorem below
quantifies over arbitrary values of them. -/

/-- The `binary_ops` prefix list of uc_analysis.py. -/
def binary_ops : List Str :=
  ["add_".toList, "sub_".toList, "mul_".toList, "div_".toList, "mod_".toList,
   "lt_".toList, "le_".toList, "gt_".toList, "ge_".toList, "eq_".toList,
   "and_".toList, "or_".toList, "ne_".toList]

/-- A CFG block as the dataflow stage sees it. -/
structure DBlock where
  label : Str
  insts : List Inst
  numerated : List (Nat × Inst)
  in_RD : List Nat
  out_set : List Str
  used : List Str
deriving DecidableEq

/-- `DataFlow.add_to_defs`. -/
def add_to_defs (d : List (Str × List Nat)) (v : Str) (index : Nat) :
    List (Str × List Nat) :=
  match dictGet d v with
  | none => dictSet d v [index]
  | some l => dictSet d v (l ++ [index])

/-- State threaded by `DataFlow.number_instructions`:
`self.labeled_code`, `self.defs`, `self.index`. -/
structure NumState where
  labeled : List (Nat × Inst)
  defs : List (Str × List Nat)
  index : Nat
deriving DecidableEq

/-- Record a definition for the (string) operand at position `k`. -/
def addDefAt (defs : List (Str × List Nat)) (inst : Inst) (k : Nat) (index : Nat) :
    List (Str × List Nat) :=
  match arg inst k with
  | .s t => add_to_defs defs t index
  | _ => defs

/-- The def-map update that `number_instructions` performs for one
instruction: the `if/elif` chain followed by the `binary_ops` loop. -/
def numberDefs (defs : List (Str × List Nat)) (inst : Inst) (index : Nat) :
    List (Str × List Nat) :=
  let defs1 :=
    if startswith (op0 inst) ("literal".toList) then addDefAt defs inst 2 index
    else if startswith (op0 inst) ("store".toList) then addDefAt defs inst 2 index
    else if startswith (op0 inst) ("load".toList) then addDefAt defs inst 2 index
    else if startswith (op0 inst) ("call".toList) then addDefAt defs inst 2 index
    else if startswith (op0 inst) ("not_".toList) then addDefAt defs inst 2 index
    else if startswith (op0 inst) ("sitofp".toList) then addDefAt defs inst 2 index
    else if startswith (op0 inst) ("fptosi".toList) then addDefAt defs inst 2 index
    else if startswith (op0 inst) ("elem".toList) then addDefAt defs inst 3 index
    else if startswith (op0 inst) ("define".toList) then
      match arg inst 2 with
      | .ps l => l.foldl (fun d p => add_to_defs d p.2 index) defs
      | _ => defs
    else defs
  binary_ops.foldl
    (fun d p => if startswith (op0 inst) p then addDefAt d inst 3 index else d) defs1

/-- Numbering one instruction: it is entered into the block's
`numerated_code` (the first component) and into `labeled_code`, the
def-map is updated, and the global index advances. -/
def number_step (acc : List (Nat × Inst) × NumState) (inst : Inst) :
    List (Nat × Inst) × NumState :=
  (dictSet acc.1 acc.2.index inst,
   { labeled := dictSet acc.2.labeled acc.2.index inst,
     defs := numberDefs acc.2.defs inst acc.2.index,
     index := acc.2.index + 1 })

/-- Numbering one block. -/
def number_block (b : DBlock) (st : NumState) : DBlock × NumState :=
  let r := b.insts.foldl number_step (b.numerated, st)
  ({ b with numerated := r.1 }, r.2)

/-- One block of the chain walk of `number_instructions`. -/
def number_chain_step (acc : List DBlock × NumState) (b : DBlock) :
    List DBlock × NumState :=
  let r := number_block b acc.2
  (acc.1 ++ [r.1], r.2)

/-- `DataFlow.number_instructions` over a block chain: `labeled_code` and
`index` are reset, `defs` is whatever the caller left (visit_Program resets
it to `{}` beforehand). -/
def number_instructions (blocks : List DBlock) (defs0 : List (Str × List Nat)) :
    List DBlock × NumState :=
  blocks.foldl number_chain_step ([], { labeled := [], defs := defs0, index := 1 })

/-- The `gen`/`kill` contribution of the `elif` arms and of the
`binary_ops` loop in `DataFlow.instruction_gen_kill`: looks up the
def-map at the operand in position `k` and removes the instruction's own
index (Python `list.remove`, which raises when the index is absent —
modelled by `none`, as is a missing key). -/
def kill_at (defs : List (Str × List Nat)) (inst : Inst) (k : Nat) (index : Nat) :
    Option (List Nat × List Nat) :=
  match arg inst k with
  | .s t =>
    match dictGet defs t with
    | some l => if index ∈ l then some ([index], l.erase index) else none
    | none => none
  | _ => none

/-- The trailing `for bin_op in binary_ops` loop of
`instruction_gen_kill`; a match overwrites the running pair. -/
def bin_overwrite (defs : List (Str × List Nat)) (inst : Inst) (index : Nat) :
    List Str → (List Nat × List Nat) → Option (List Nat × List Nat)
  | [], gk => some gk
  | p :: rest, gk =>
    if startswith (op0 inst) p then
      match kill_at defs inst 3 index with
      | some gk' => bin_overwrite defs inst index rest gk'
      | none => none
    else bin_overwrite defs inst index rest gk

/-- `DataFlow.instruction_gen_kill`. -/
def instruction_gen_kill (defs : List (Str × List Nat)) (inst : Inst)
    (index : Nat) : Option (List Nat × List Nat) := do
  let gk ←
    if startswith (op0 inst) ("store".toList) then kill_at defs inst 2 index
    else if startswith (op0 inst) ("literal".toList) then kill_at defs inst 2 index
    else if startswith (op0 inst) ("load".toList) then kill_at defs inst 2 index
    else if startswith (op0 inst) ("call".toList) then kill_at defs inst 2 index
    else if startswith (op0 inst) ("not_".toList) then kill_at defs inst 2 index
    else if startswith (op0 inst) ("sitofp".toList) then kill_at defs inst 2 index
    else if startswith (op0 inst) ("fptosi".toList) then kill_at defs inst 2 index
    else pure ([], [])
  bin_overwrite defs inst index binary_ops gk

/-- The prefixes of the `elif` chain of `instruction_gen_kill` whose kill
target is `inst[2]`, in source order. -/
def elif_prefixes : List Str :=
  ["store".toList, "literal".toList, "load".toList, "call".toList,
   "not_".toList, "sitofp".toList, "fptosi".toList]

theorem bin_overwrite_skip (defs : List (Str × List Nat)) (inst : Inst)
    (index : Nat) :
    ∀ (ps : List Str) (gk : List Nat × List Nat),
      (∀ p ∈ ps, startswith (op0 inst) p = false) →
      bin_overwrite defs inst index ps gk = some gk := by
  intro ps
  induction ps with
  | nil => intro gk _; rfl
  | cons p rest ih =>
    intro gk h
    have hp := h p (by simp)
    simp only [bin_overwrite, hp]
    simp only [Bool.false_eq_true, if_false]
    exact ih gk fun p' hp' => h p' (by simp [hp'])

theorem bin_overwrite_of_match (defs : List (Str × List Nat)) (inst : Inst)
    (index : Nat) (gkv : List Nat × List Nat) :
    ∀ (ps : List Str) (gk : List Nat × List Nat),
      kill_at defs inst 3 index = some gkv →
      (∃ p ∈ ps, startswith (op0 inst) p = true) →
      bin_overwrite defs inst index ps gk = some gkv := by
  intro ps
  induction ps with
  | nil => intro gk _ hex; simp at hex
  | cons p rest ih =>
    intro gk hk hex
    by_cases hp : startswith (op0 inst) p = true
    · simp only [bin_overwrite, hp, if_true, hk]
      by_cases hex2 : ∃ p' ∈ rest, startswith (op0 inst) p' = true
      · exact ih gkv hk hex2
      · refine bin_overwrite_skip defs inst index rest gkv fun p' hp' => ?_
        cases h : startswith (op0 inst) p'
        · rfl
        · exact absurd ⟨p', hp', h⟩ hex2
    · rcases hex with ⟨p', hp', hsw'⟩
      have hmem : p' ∈ rest := by
        rcases List.mem_cons.mp hp' with h | h
        · exact absurd (h ▸ hsw') hp
        · exact h
      have hpf : startswith (op0 inst) p = false := by
        cases h : startswith (op0 inst) p
        · rfl
        · exact absurd h hp
      simp only [bin_overwrite, hpf, Bool.false_eq_true, if_false]
      exact ih gk hk ⟨p', hmem, hsw'⟩

/-- Evaluating the `elif` arm of `instruction_gen_kill` under the usual
well-formedness of the def-map. -/
theorem kill_at_eq (defs : List (Str × List Nat)) (inst : Inst) (k index : Nat)
    (t : Str) (l : List Nat) (h2 : arg inst k = .s t)
    (hget : dictGet defs t = some l) (hmem : index ∈ l) :
    kill_at defs inst k index = some ([index], l.erase index) := by
  simp [kill_at, h2, hget, hmem]

/-- C2 (amended): the per-instruction reaching-definition sets are
`gen = {i}` and `kill = def-map[target] minus {i}` for the opcodes
`store`, `literal`, `load`, `call`, `not_`, `sitofp`, `fptosi` (target
`inst[2]`) and the arithmetic/relational/logical binary ops (target
`inst[3]`); for `elem` and `define` instructions `instruction_gen_kill`
returns empty `gen` and `kill`, even though their targets are recorded
in the def-map by `number_instructions`. -/
theorem instruction_gen_kill_amended :
    (∀ (defs : List (Str × List Nat)) (inst : Inst) (index : Nat) (t : Str)
       (l : List Nat), arg inst 2 = .s t → dictGet defs t = some l → index ∈ l →
       (∃ q ∈ elif_prefixes, startswith (op0 inst) q = true) →
       instruction_gen_kill defs inst index = some ([index], l.erase index)) ∧
    (∀ (defs : List (Str × List Nat)) (inst : Inst) (index : Nat) (t : Str)
       (l : List Nat), arg inst 3 = .s t → dictGet defs t = some l → index ∈ l →
       (∃ p ∈ binary_ops, startswith (op0 inst) p = true) →
       instruction_gen_kill defs inst index = some ([index], l.erase index)) ∧
    (∀ (defs : List (Str × List Nat)) (inst : Inst) (index : Nat),
       (startswith (op0 inst) ("elem".toList) = true ∨
        startswith (op0 inst) ("define".toList) = true) →
       instruction_gen_kill defs inst index = some ([], [])) := by
  have hpairsBE : ∀ p ∈ binary_ops, ∀ q ∈ elif_prefixes,
      ¬ (startswith p q = true ∨ startswith q p = true) := by decide
  refine ⟨?_, ?_, ?_⟩
  · intro defs inst index t l h2 hget hmem hex
    have kres := kill_at_eq defs inst 2 index t l h2 hget hmem
    obtain ⟨q, hq, hsw⟩ := hex
    have hbin : ∀ p ∈ binary_ops, startswith (op0 inst) p = false := by
      intro p hp
      exact startswith_false_of_incomp (fun h => hpairsBE p hp q hq h.symm) hsw
    have hskip := fun gk => bin_overwrite_skip defs inst index binary_ops gk hbin
    fin_cases hq
    · simp only [instruction_gen_kill, hsw, if_true, kres, Option.bind_eq_bind,
        Option.some_bind]
      exact hskip _
    · have f1 : startswith (op0 inst) ("store".toList) = false :=
        startswith_false_of_incomp (by decide) hsw
      simp only [instruction_gen_kill, f1, hsw, Bool.false_eq_true, if_false,
        if_true, kres, Option.bind_eq_bind, Option.some_bind]
      exact hskip _
    · have f1 : startswith (op0 inst) ("store".toList) = false :=
        startswith_false_of_incomp (by decide) hsw
      have f2 : startswith (op0 inst) ("literal".toList) = false :=
        startswith_false_of_incomp (by decide) hsw
      simp only [instruction_gen_kill, f1, f2, hsw, Bool.false_eq_true, if_false,
        if_true, kres, Option.bind_eq_bind, Option.some_bind]
      exact hskip _
    · have f1 : startswith (op0 inst) ("store".toList) = false :=
        startswith_false_of_incomp (by decide) hsw
      have f2 : startswith (op0 inst) ("literal".toList) = false :=
        startswith_false_of_incomp (by decide) hsw
      have f3 : startswith (op0 inst) ("load".toList) = false :=
        startswith_false_of_incomp (by decide) hsw
      simp only [instruction_gen_kill, f1, f2, f3, hsw, Bool.false_eq_true,
        if_false, if_true, kres, Option.bind_eq_bind, Option.some_bind]
      exact hskip _
    · have f1 : startswith (op0 inst) ("store".toList) = false :=
        startswith_false_of_incomp (by decide) hsw
      have f2 : startswith (op0 inst) ("literal".toList) = false :=
        startswith_false_of_incomp (by decide) hsw
      have f3 : startswith (op0 inst) ("load".toList) = false :=
        startswith_false_of_incomp (by decide) hsw
      have f4 : startswith (op0 inst) ("call".toList) = false :=
        startswith_false_of_incomp (by decide) hsw
      simp only [instruction_gen_kill, f1, f2, f3, f4, hsw, Bool.false_eq_true,
        if_false, if_true, kres, Option.bind_eq_bind, Option.some_bind]
      exact hskip _
    · have f1 : startswith (op0 inst) ("store".toList) = false :=
        startswith_false_of_incomp (by decide) hsw
      have f2 : startswith (op0 inst) ("literal".toList) = false :=
        startswith_false_of_incomp (by decide) hsw
      have f3 : startswith (op0 inst) ("load".toList) = false :=
        startswith_false_of_incomp (by decide) hsw
      have f4 : startswith (op0 inst) ("call".toList) = false :=
        startswith_false_of_incomp (by decide) hsw
      have f5 : startswith (op0 inst) ("not_".toList) = false :=
        startswith_false_of_incomp (by decide) hsw
      simp only [instruction_gen_kill, f1, f2, f3, f4, f5, hsw,
        Bool.false_eq_true, if_false, if_true, kres, Option.bind_eq_bind,
        Option.some_bind]
      exact hskip _
    · have f1 : startswith (op0 inst) ("store".toList) = false :=
        startswith_false_of_incomp (by decide) hsw
      have f2 : startswith (op0 inst) ("literal".toList) = false :=
        startswith_false_of_incomp (by decide) hsw
      have f3 : startswith (op0 inst) ("load".toList) = false :=
        startswith_false_of_incomp (by decide) hsw
      have f4 : startswith (op0 inst) ("call".toList) = false :=
        startswith_false_of_incomp (by decide) hsw
      have f5 : startswith (op0 inst) ("not_".toList) = false :=
        startswith_false_of_incomp (by decide) hsw
      have f6 : startswith (op0 inst) ("sitofp".toList) = false :=
        startswith_false_of_incomp (by decide) hsw
      simp only [instruction_gen_kill, f1, f2, f3, f4, f5, f6, hsw,
        Bool.false_eq_true, if_false, if_true, kres, Option.bind_eq_bind,
        Option.some_bind]
      exact hskip _
  · intro defs inst index t l h3 hget hmem hex
    have kres := kill_at_eq defs inst 3 index t l h3 hget hmem
    obtain ⟨p, hp, hsw⟩ := hex
    have hfs : ∀ q ∈ elif_prefixes, startswith (op0 inst) q = false := by
      intro q hq
      exact startswith_false_of_incomp (hpairsBE p hp q hq) hsw
    have f1 := hfs ("store".toList) (by simp [elif_prefixes])
    have f2 := hfs ("literal".toList) (by simp [elif_prefixes])
    have f3 := hfs ("load".toList) (by simp [elif_prefixes])
    have f4 := hfs ("call".toList) (by simp [elif_prefixes])
    have f5 := hfs ("not_".toList) (by simp [elif_prefixes])
    have f6 := hfs ("sitofp".toList) (by simp [elif_prefixes])
    have f7 := hfs ("fptosi".toList) (by simp [elif_prefixes])
    simp only [instruction_gen_kill, f1, f2, f3, f4, f5, f6, f7,
      Bool.false_eq_true, if_false, Option.bind_eq_bind, Option.pure_def,
      Option.some_bind]
    exact bin_overwrite_of_match defs inst index _ binary_ops ([], []) kres
      ⟨p, hp, hsw⟩
  · intro defs inst index hor
    have hfs : ∀ q ∈ elif_prefixes, startswith (op0 inst) q = false := by
      rcases hor with hsw | hsw
      · exact fun q hq => startswith_false_of_incomp
          (by fin_cases hq <;> decide) hsw
      · exact fun q hq => startswith_false_of_incomp
          (by fin_cases hq <;> decide) hsw
    have hbin : ∀ p ∈ binary_ops, startswith (op0 inst) p = false := by
      rcases hor with hsw | hsw
      · exact fun p hp => startswith_false_of_incomp
          (by fin_cases hp <;> decide) hsw
      · exact fun p hp => startswith_false_of_incomp
          (by fin_cases hp <;> decide) hsw
    have f1 := hfs ("store".toList) (by simp [elif_prefixes])
    have f2 := hfs ("literal".toList) (by simp [elif_prefixes])
    have f3 := hfs ("load".toList) (by simp [elif_prefixes])
    have f4 := hfs ("call".toList) (by simp [elif_prefixes])
    have f5 := hfs ("not_".toList) (by simp [elif_prefixes])
    have f6 := hfs ("sitofp".toList) (by simp [elif_prefixes])
    have f7 := hfs ("fptosi".toList) (by simp [elif_prefixes])
    simp only [instruction_gen_kill, f1, f2, f3, f4, f5, f6, f7,
      Bool.false_eq_true, if_false, Option.bind_eq_bind, Option.pure_def,
      Option.some_bind]
    exact bin_overwrite_skip defs inst index binary_ops ([], []) hbin

end UC

namespace UC

/-- Concrete def-map for the C2 counterexample: the `elem` instruction at
index 5 writes `%loc`, and the numbering recorded that. -/
def c2defs : List (Str × List Nat) := [("%loc".toList, [5])]

/-- A concrete `elem` instruction, as emitted for `a[i]`. -/
def c2elem : Inst :=
  [.s "elem_int".toList, .s "%a".toList, .s "%1".toList, .s "%loc".toList]

/-- C2 counterexample: for the defining opcode `elem` the claim predicts
`gen = {5}` and `kill = def-map[%loc] minus {5} = {}`, i.e.
`some ([5], [])`; `instruction_gen_kill` actually returns empty gen and
kill sets for `elem` (and likewise for `define`). -/
theorem elem_gen_kill_counterexample :
    instruction_gen_kill c2defs c2elem 5 = some ([], []) ∧
    instruction_gen_kill c2defs c2elem 5 ≠
      some ([5], ([5] : List Nat).erase 5) := by
  constructor
  · decide
  · decide

/-- Witness for the amended C2 theorem: a concrete `store` and a concrete
`add_int` instruction get the claimed gen/kill sets. -/
theorem instruction_gen_kill_amended_witness :
    instruction_gen_kill [("%x".toList, [3, 7])]
        [.s "store_int".toList, .s "%1".toList, .s "%x".toList] 3 =
      some ([3], [7]) ∧
    instruction_gen_kill [("%t".toList, [4])]
        [.s "add_int".toList, .s "%1".toList, .s "%2".toList, .s "%t".toList] 4 =
      some ([4], []) := by
  constructor
  · have h := instruction_gen_kill_amended.1 [("%x".toList, [3, 7])]
      [.s "store_int".toList, .s "%1".toList, .s "%x".toList] 3 ("%x".toList)
      [3, 7] (by decide) (by decide) (by decide)
      ⟨"store".toList, by simp [elif_prefixes], by decide⟩
    simpa using h
  · have h := instruction_gen_kill_amended.2.1 [("%t".toList, [4])]
      [.s "add_int".toList, .s "%1".toList, .s "%2".toList, .s "%t".toList] 4
      ("%t".toList) [4] (by decide) (by decide) (by decide)
      ⟨"add_".toList, by simp [binary_ops], by decide⟩
    simpa using h

end UC

namespace UC

/-! ### Types (uc_type.py)

`uCType` carries the operator sets allowed for the type; type equality in
the analyser is by structural string rendering.  The basic types are the
six singletons of uc_type.py; `array` is `ArrayType`. -/

inductive UCType where
  | int | float | char | bool | string | void
  | array (elem : UCType) (size : Option Nat)
deriving DecidableEq

/-- Python `s.split(c, 1)`: the part before the first occurrence of `c`,
and (when `c` occurs) the rest. -/
def splitFirstAt (c : Char) : Str → Str × Option Str
  | [] => ([], none)
  | a :: rest =>
    if a = c then ([], some rest)
    else
      let r := splitFirstAt c rest
      (a :: r.1, r.2)

/-- `__str__` of uCType / ArrayType: the size complement is inserted
after the element type's base name, before its own brackets. -/
def strOf : UCType → Str
  | .int => "int".toList
  | .float => "float".toList
  | .char => "char".toList
  | .bool => "bool".toList
  | .string => "string".toList
  | .void => "void".toList
  | .array e size =>
    let t := splitFirstAt '[' (strOf e)
    let complement :=
      match size with
      | some n => "[".toList ++ (Nat.repr n).toList ++ "]".toList
      | none => "[]".toList
    match t.2 with
    | some rest => t.1 ++ complement ++ "[".toList ++ rest
    | none => t.1 ++ complement

/-- `binary_ops` of each type (uc_type.py); `ArrayType` passes none. -/
def ucBinaryOps : UCType → List Str
  | .int => ["+".toList, "-".toList, "*".toList, "/".toList, "%".toList]
  | .float => ["+".toList, "-".toList, "*".toList, "/".toList, "%".toList]
  | .char => []
  | .bool => []
  | .string => ["+".toList]
  | .void => []
  | .array _ _ => []

/-- `rel_ops` of each type (uc_type.py). -/
def ucRelOps : UCType → List Str
  | .int => ["==".toList, "!=".toList, "<".toList, ">".toList, "<=".toList, ">=".toList]
  | .float => ["==".toList, "!=".toList, "<".toList, ">".toList, "<=".toList, ">=".toList]
  | .char => ["==".toList, "!=".toList, "&&".toList, "||".toList]
  | .bool => ["==".toList, "!=".toList, "&&".toList, "||".toList]
  | .string => ["==".toList, "!=".toList]
  | .void => []
  | .array _ _ => ["==".toList, "!=".toList]

/-- `Visitor.visit_BinaryOp` on an already-typed node: the error code of
the first failed `_assert_semantic`, or the node's resulting `uc_type`. -/
def visit_BinaryOp (lt rt : UCType) (op : Str) : Except Nat UCType :=
  if strOf lt = strOf rt then
    if op ∈ ucBinaryOps lt then .ok lt
    else if op ∈ ucRelOps lt then .ok .bool
    else .error 7
  else .error 6

theorem ucBinaryOps_rel_disjoint (t : UCType) :
    ∀ op ∈ ucBinaryOps t, op ∉ ucRelOps t := by
  cases t <;> first
    | decide
    | (intro op h; simp [ucBinaryOps] at h)

/-- C6: a `BinaryOp` accepted by the analyser has operands whose type
renderings are equal, its `uc_type` is the operand type for an operator
in the type's `binary_ops`, and `Bool` for an operator in the type's
`rel_ops`; any other operator is rejected (error 7, and unequal operand
renderings are rejected with error 6). -/
theorem binaryop_typing_sound (lt rt : UCType) (op : Str) (r : UCType)
    (h : visit_BinaryOp lt rt op = .ok r) :
    strOf lt = strOf rt ∧
    (op ∈ ucBinaryOps lt → r = lt) ∧
    (op ∈ ucRelOps lt → r = .bool) ∧
    (op ∈ ucBinaryOps lt ∨ op ∈ ucRelOps lt) := by
  by_cases heq : strOf lt = strOf rt
  · refine ⟨heq, ?_, ?_, ?_⟩
    · intro hb
      simp only [visit_BinaryOp, heq, if_pos, hb, if_true] at h
      exact (Except.ok.injEq _ _ |>.mp h).symm
    · intro hr
      have hb : op ∉ ucBinaryOps lt := fun hb =>
        ucBinaryOps_rel_disjoint lt op hb hr
      simp only [visit_BinaryOp, heq, if_pos, hb, if_false, hr, if_true] at h
      exact (Except.ok.injEq _ _ |>.mp h).symm
    · by_cases hb : op ∈ ucBinaryOps lt
      · exact Or.inl hb
      · by_cases hr : op ∈ ucRelOps lt
        · exact Or.inr hr
        · simp [visit_BinaryOp, heq, hb, hr] at h
  · simp [visit_BinaryOp, heq] at h

/-- Witness for C6 at concrete inputs: `int + int : int` and
`int < int : bool`. -/
theorem binaryop_typing_sound_witness :
    (strOf .int = strOf .int ∧
      (("+".toList ∈ ucBinaryOps .int → UCType.int = .int) ∧
        ("+".toList ∈ ucRelOps .int → UCType.int = .bool) ∧
        ("+".toList ∈ ucBinaryOps .int ∨ "+".toList ∈ ucRelOps .int))) ∧
    (strOf .int = strOf .int ∧
      (("<".toList ∈ ucBinaryOps .int → UCType.bool = .int) ∧
        ("<".toList ∈ ucRelOps .int → UCType.bool = .bool) ∧
        ("<".toList ∈ ucBinaryOps .int ∨ "<".toList ∈ ucRelOps .int))) := by
  constructor
  · have h := binaryop_typing_sound .int .int ("+".toList) .int rfl
    exact ⟨h.1, h.2⟩
  · have h := binaryop_typing_sound .int .int ("<".toList) .bool rfl
    exact ⟨h.1, h.2⟩

end UC

namespace UC

/-! ### `visit_Print` (uc_sema.py) -/

/-- The kind of AST node passed as the print argument, with the type
information the check reads: for an `ID` its `uc_type`, for a `FuncCall`
its declarator's `uc_type`, and for every other node kind the node's
`uc_type` (which `visit_Print` never inspects). -/
inductive PrintArg where
  | idArg (t : UCType)
  | funcCallArg (t : UCType)
  | otherArg (t : UCType)
deriving DecidableEq

/-- The tuple of type renderings accepted by `visit_Print`. -/
def print_allowed : List Str :=
  ["int".toList, "char".toList, "float".toList, "string".toList,
   "char[]".toList]

/-- `Visitor.visit_Print`: only `ID` (error 22) and `FuncCall` (error 21)
arguments are type-checked; any other argument kind is accepted. -/
def visit_Print : PrintArg → Except Nat Unit
  | .idArg t => if strOf t ∈ print_allowed then .ok () else .error 22
  | .funcCallArg t => if strOf t ∈ print_allowed then .ok () else .error 21
  | .otherArg _ => .ok ()

/-- Modelled from the spec: a basic type or a string ("basic" per spec
section 3: Int, Float, Char, Bool, Void; strings include the string type
and char arrays). Used only to compare `visit_Print` with the claim. -/
def isBasicOrStringSpec : UCType → Bool
  | .int | .float | .char | .bool | .void | .string => true
  | .array .char _ => true
  | .array _ _ => false

/-- C9 counterexample: a print argument that is neither an `ID` nor a
`FuncCall` (here an `ArrayRef` of type `int[2]`) is accepted by
`visit_Print` although its type is neither basic nor a string, so no
error 21/22 is raised. -/
theorem print_check_counterexample :
    visit_Print (.otherArg (.array .int (some 2))) = .ok () ∧
    isBasicOrStringSpec (.array .int (some 2)) = false := by
  exact ⟨rfl, rfl⟩

/-- C9 (amended): the basic-or-string check of `visit_Print` applies only
to `ID` arguments (error 22) and `FuncCall` arguments (error 21), testing
the rendered type against int, char, float, string, char[]; print
arguments of any other expression kind are accepted without any check. -/
theorem print_check_amended :
    (∀ t, visit_Print (.idArg t) = .ok () ↔ strOf t ∈ print_allowed) ∧
    (∀ t, strOf t ∉ print_allowed → visit_Print (.idArg t) = .error 22) ∧
    (∀ t, visit_Print (.funcCallArg t) = .ok () ↔ strOf t ∈ print_allowed) ∧
    (∀ t, strOf t ∉ print_allowed → visit_Print (.funcCallArg t) = .error 21) ∧
    (∀ t, visit_Print (.otherArg t) = .ok ()) := by
  refine ⟨fun t => ?_, fun t h => ?_, fun t => ?_, fun t h => ?_, fun t => rfl⟩
  · by_cases h : strOf t ∈ print_allowed <;> simp [visit_Print, h]
  · simp [visit_Print, h]
  · by_cases h : strOf t ∈ print_allowed <;> simp [visit_Print, h]
  · simp [visit_Print, h]

/-- Witness for the amended C9 theorem at concrete inputs. -/
theorem print_check_amended_witness :
    visit_Print (.idArg .int) = .ok () ∧
    visit_Print (.idArg (.array .int (some 3))) = .error 22 ∧
    visit_Print (.funcCallArg .bool) = .error 21 ∧
    visit_Print (.otherArg (.array .float none)) = .ok () := by
  refine ⟨?_, ?_, ?_, ?_⟩
  · exact (print_check_amended.1 .int).mpr (by decide)
  · exact print_check_amended.2.1 (.array .int (some 3)) (by decide)
  · exact print_check_amended.2.2.2.1 .bool (by decide)
  · exact print_check_amended.2.2.2.2 (.array .float none)

end UC

namespace UC

/-! ### SymbolTable (uc_sema.py)

The Python class is a `dict` whose entries hold nested pairs
`(value, previous-entry-or-None)`; a removed binding leaves the entry in
the dict with value `None`, which Python's `.get(name, None)` makes
indistinguishable from an absent key — the model stores `Option`-valued
entries.  A parallel `args` dict holds parameter signatures and a
`scope` list of per-scope name lists drives `endscope`. -/

/-- The nested pair `(value, previous)` stored for a name. -/
inductive Chain (α : Type) where
  | mk (val : α) (prev : Option (Chain α))

def Chain.val {α : Type} : Chain α → α
  | .mk v _ => v

def Chain.prev {α : Type} : Chain α → Option (Chain α)
  | .mk _ p => p

structure SymbolTable (α β : Type) where
  table : List (Str × Option (Chain α))
  args : List (Str × Option (Chain β))
  scope : List (List Str)

/-- `self.get(name, None)` on the main dict. -/
def tget {α β : Type} (st : SymbolTable α β) (name : Str) : Option (Chain α) :=
  (dictGet st.table name).join

/-- `self.args.get(name, None)`. -/
def aget {α β : Type} (st : SymbolTable α β) (name : Str) : Option (Chain β) :=
  (dictGet st.args name).join

/-- Python indexing `scope[scp]` followed by `.append(name)` on that
inner list; raises (`none`) when the index is out of range. -/
def scopeUpdate (scope : List (List Str)) (scp : Int) (name : Str) :
    Option (List (List Str)) :=
  let idx : Int := if scp < 0 then (scope.length : Int) + scp else scp
  if 0 ≤ idx ∧ idx < (scope.length : Int) then
    some (scope.set idx.toNat (scope.getD idx.toNat [] ++ [name]))
  else none

/-- `SymbolTable.add(name, value, args, scp)`. -/
def SymbolTable.add {α β : Type} (st : SymbolTable α β) (name : Str) (v : α)
    (a : β) (scp : Int) : Option (SymbolTable α β) :=
  match scopeUpdate st.scope scp name with
  | none => none
  | some sc =>
    some { table := dictSet st.table name (some (Chain.mk v (tget st name)))
           args := dictSet st.args name (some (Chain.mk a (aget st name)))
           scope := sc }

/-- `SymbolTable.lookup`. -/
def SymbolTable.lookup {α β : Type} (st : SymbolTable α β) (name : Str) :
    Option α :=
  (tget st name).map Chain.val

/-- `SymbolTable.lookup_args`. -/
def SymbolTable.lookup_args {α β : Type} (st : SymbolTable α β) (name : Str) :
    Option β :=
  (aget st name).map Chain.val

/-- `SymbolTable.remove`: each dict entry is replaced by its stored
previous binding (when the name is currently bound). -/
def SymbolTable.remove {α β : Type} (st : SymbolTable α β) (name : Str) :
    SymbolTable α β :=
  let table :=
    match tget st name with
    | some c => dictSet st.table name c.prev
    | none => st.table
  let args :=
    match aget st name with
    | some c => dictSet st.args name c.prev
    | none => st.args
  { table := table, args := args, scope := st.scope }

/-- `SymbolTable.beginscope`. -/
def SymbolTable.beginscope {α β : Type} (st : SymbolTable α β) :
    SymbolTable α β :=
  { st with scope := st.scope ++ [[]] }

/-- `SymbolTable.endscope`: removes every name recorded in the innermost
scope, then pops it; raises (`none`) when there is no scope. -/
def SymbolTable.endscope {α β : Type} (st : SymbolTable α β) :
    Option (SymbolTable α β) :=
  match st.scope.getLast? with
  | none => none
  | some names =>
    let st' := names.foldl (fun s n => s.remove n) st
    some { st' with scope := st.scope.dropLast }

/-- `SymbolTable.declared`: `-2` current scope, `-1` outer scope only,
`0` unbound; raises (`none`) when there is no scope. -/
def SymbolTable.declared {α β : Type} (st : SymbolTable α β) (name : Str) :
    Option Int :=
  match st.scope.getLast? with
  | none => none
  | some cur =>
    if name ∈ cur ∧ (tget st name).isSome then some (-2)
    else if (tget st name).isSome then some (-1)
    else some 0

end UC

namespace UC

theorem getD_append_length {γ : Type} (l : List γ) (x d : γ) :
    (l ++ [x]).getD l.length d = x := by
  induction l with
  | nil => rfl
  | cons a t ih => simpa using ih

theorem set_append_length {γ : Type} (l : List γ) (x y : γ) :
    (l ++ [x]).set l.length y = l ++ [y] := by
  induction l with
  | nil => rfl
  | cons a t ih => simp [List.set, ih]

theorem scopeUpdate_last (l : List (List Str)) (cur : List Str) (n : Str) :
    scopeUpdate (l ++ [cur]) (-1) n = some (l ++ [cur ++ [n]]) := by
  have hidx : (if (-1 : Int) < 0 then ((l ++ [cur]).length : Int) + (-1)
      else (-1 : Int)) = (l.length : Int) := by
    simp [List.length_append]
  have hcond : (0 : Int) ≤ (l.length : Int) ∧
      (l.length : Int) < ((l ++ [cur]).length : Int) := by
    constructor
    · exact Int.natCast_nonneg _
    · simp [List.length_append]
  simp only [scopeUpdate, hidx, hcond, and_self, if_true, Int.toNat_natCast,
    if_pos]
  rw [getD_append_length, set_append_length]

/-- C7: pushing a scope, adding a binding for `n` and popping the scope
restores both `lookup n` and `lookup_args n` (and the scope stack), and
`declared` classifies a name as `-2` exactly when it is recorded in the
innermost scope and bound, `-1` when it is bound but not recorded in the
innermost scope, and `0` when it is unbound. -/
theorem symtab_scope_discipline (α β : Type) (st : SymbolTable α β) (n : Str)
    (v : α) (a : β) :
    (∃ st1 st2, (st.beginscope).add n v a (-1) = some st1 ∧
        st1.endscope = some st2 ∧
        st2.lookup n = st.lookup n ∧
        st2.lookup_args n = st.lookup_args n ∧
        st2.scope = st.scope) ∧
    (st.scope ≠ [] →
      (st.declared n = some (-2) ↔
        (n ∈ st.scope.getLast?.getD [] ∧ (tget st n).isSome)) ∧
      (st.declared n = some (-1) ↔
        ((tget st n).isSome ∧ n ∉ st.scope.getLast?.getD [])) ∧
      (st.declared n = some 0 ↔ (tget st n).isSome = false)) := by
  constructor
  · have hupd : scopeUpdate (st.scope ++ [[]]) (-1) n =
        some (st.scope ++ [[n]]) := by
      simpa using scopeUpdate_last st.scope [] n
    refine ⟨{ table := dictSet st.table n (some (Chain.mk v (tget st n))),
              args := dictSet st.args n (some (Chain.mk a (aget st n))),
              scope := st.scope ++ [[n]] },
            { table := dictSet (dictSet st.table n
                (some (Chain.mk v (tget st n)))) n (tget st n),
              args := dictSet (dictSet st.args n
                (some (Chain.mk a (aget st n)))) n (aget st n),
              scope := st.scope }, ?_, ?_, ?_, ?_, ?_⟩
    · simp only [SymbolTable.add, SymbolTable.beginscope, hupd]
      rfl
    · simp only [SymbolTable.endscope, List.getLast?_concat, List.foldl_cons,
        List.foldl_nil, SymbolTable.remove, tget, aget, dictGet_dictSet_self,
        Option.join, List.dropLast_concat, Chain.prev]
      rfl
    · simp [SymbolTable.lookup, tget, dictGet_dictSet_self, Option.join]
    · simp [SymbolTable.lookup_args, aget, dictGet_dictSet_self, Option.join]
    · rfl
  · intro hne
    obtain ⟨cur, hcur⟩ : ∃ cur, st.scope.getLast? = some cur :=
      Option.isSome_iff_exists.mp (List.getLast?_isSome.mpr hne)
    simp only [SymbolTable.declared, hcur, Option.getD_some]
    by_cases hmem : n ∈ cur
    · by_cases hb : (tget st n).isSome
      · simp [hmem, hb]
      · simp [hmem, hb]
    · by_cases hb : (tget st n).isSome
      · simp [hmem, hb]
      · simp [hmem, hb]

/-- Witness for C7 at a concrete table: an empty table with one open
scope; adding and popping restores the absent binding, and `declared`
reports `0` for an unbound name. -/
theorem symtab_scope_discipline_witness :
    (∃ st1 st2,
        ((⟨[], [], [[]]⟩ : SymbolTable Nat Nat).beginscope).add
          ("x".toList) 1 2 (-1) = some st1 ∧
        st1.endscope = some st2 ∧
        st2.lookup ("x".toList) =
          (⟨[], [], [[]]⟩ : SymbolTable Nat Nat).lookup ("x".toList) ∧
        st2.lookup_args ("x".toList) =
          (⟨[], [], [[]]⟩ : SymbolTable Nat Nat).lookup_args ("x".toList) ∧
        st2.scope = [[]]) ∧
    (⟨[], [], [[]]⟩ : SymbolTable Nat Nat).declared ("x".toList) = some 0 := by
  have h := symtab_scope_discipline Nat Nat ⟨[], [], [[]]⟩ ("x".toList) 1 2
  refine ⟨h.1, ?_⟩
  exact ((h.2 (by simp)).2.2).mpr rfl

end UC

namespace UC

/-! ### Constant propagation (uc_analysis.py)

`check_constant_propagation` and `constant_propagation`, with the crash
cases (KeyError on `labeled_code` / `defs`, subscripting a non-string)
modelled as `none`.  The one place where the source's behaviour is not
fully determined by the language is `list(set(..).union(..))`: CPython
iterates a set of small non-negative ints in ascending order, and the
model commits to that order. -/

/-- `str(type(v).__name__)` for the values an operand can hold. -/
def py_type_name : Opnd → Str
  | .i _ => "int".toList
  | .s _ => "str".toList
  | .ps _ => "list".toList

/-- Insertion into a sorted list. -/
def insSorted (x : Nat) : List Nat → List Nat
  | [] => [x]
  | y :: t => if x ≤ y then x :: y :: t else y :: insSorted x t

/-- `list(set(a).union(b))` on small naturals: deduplicate and sort. -/
def py_set_union (a b : List Nat) : List Nat :=
  ((a ++ b).dedup).foldr insSorted []

/-- The inner loop of `check_constant_propagation` over the definitions
of a store's source operand.  `some cv` is normal exit (including the
inner `break`, which resets the running value to `None` but lets the
outer loop continue); `none` is a KeyError. -/
def literal_scan (labeled : List (Nat × Inst)) :
    List Nat → Option Opnd → Option (Option Opnd)
  | [], cv => some cv
  | e :: rest, cv =>
    match dictGet labeled e with
    | none => none
    | some inst =>
      if startswith (op0 inst) ("literal".toList) then
        match cv with
        | none => literal_scan labeled rest (some (arg inst 1))
        | some v =>
          if v = arg inst 1 then literal_scan labeled rest (some v)
          else some none
      else some none

/-- The outer loop of `check_constant_propagation` over the reaching
definitions; a reaching definition of the variable that is not a store
breaks out of the loop with `None`. -/
def check_loop (defs : List (Str × List Nat)) (labeled : List (Nat × Inst))
    (varDefs : List Nat) : List Nat → Option Opnd → Option (Option Opnd)
  | [], cv => some cv
  | d :: rest, cv =>
    if d ∈ varDefs then
      match dictGet labeled d with
      | none => none
      | some inst =>
        if startswith (op0 inst) ("store".toList) then
          match arg inst 1 with
          | .s src =>
            match dictGet defs src with
            | none => none
            | some srcDefs =>
              match literal_scan labeled srcDefs cv with
              | none => none
              | some cv' => check_loop defs labeled varDefs rest cv'
          | _ => none
        else some none
    else check_loop defs labeled varDefs rest cv

/-- `DataFlow.check_constant_propagation`. -/
def check_constant_propagation (defs : List (Str × List Nat))
    (labeled : List (Nat × Inst)) (current_defs : List Nat) (var : Opnd) :
    Option (Option Opnd) :=
  match var with
  | .s [] => none
  | .s (c :: cs) =>
    if c = '@' then some none
    else
      match dictGet defs (c :: cs) with
      | none => some none
      | some varDefs => check_loop defs labeled varDefs current_defs none
  | _ => none

/-- The literal instruction that replaces a rewritten load. -/
def rewritten_load (v : Opnd) (inst : Inst) : Inst :=
  [.s ("literal_".toList ++ py_type_name v), v, arg inst 2]

/-- The per-instruction loop of `DataFlow.constant_propagation`:
`items` is the snapshot of `bb.numerated_code.items()`, `labeled` is
`self.labeled_code`, `num` the block's `numerated_code`, `cds` the
running reaching-definition set. -/
def cp_loop (defs : List (Str × List Nat)) :
    List (Nat × Inst) → List (Nat × Inst) → List (Nat × Inst) → List Nat →
    Option (List (Nat × Inst) × List (Nat × Inst))
  | [], labeled, num, _ => some (labeled, num)
  | (index, inst) :: rest, labeled, num, cds =>
    match (if startswith (op0 inst) ("load".toList) then
             check_constant_propagation defs labeled cds (arg inst 1)
           else some none) with
    | none => none
    | some expr_value =>
      let st1 :=
        match expr_value with
        | some v =>
          (dictSet labeled index (rewritten_load v inst),
           dictSet num index (rewritten_load v inst))
        | none => (labeled, num)
      match instruction_gen_kill defs inst index with
      | none => none
      | some (g, k) =>
        let cds' :=
          if g ≠ [] ∨ k ≠ [] then
            py_set_union (cds.filter (fun i => i ∉ k)) g
          else cds
        cp_loop defs rest st1.1 st1.2 cds'

/-- One block of `constant_propagation`: the running set starts from the
block's `in_RD`. -/
def cp_block (defs : List (Str × List Nat)) (labeled : List (Nat × Inst))
    (b : DBlock) : Option (List (Nat × Inst) × DBlock) :=
  match cp_loop defs b.numerated labeled b.numerated b.in_RD with
  | none => none
  | some (labeled', num') => some (labeled', { b with numerated := num' })

/-- `DataFlow.constant_propagation` over the block chain. -/
def constant_propagation (defs : List (Str × List Nat)) :
    List (Nat × Inst) → List DBlock →
    Option (List (Nat × Inst) × List DBlock)
  | labeled, [] => some (labeled, [])
  | labeled, b :: rest =>
    match cp_block defs labeled b with
    | none => none
    | some (labeled1, b') =>
      match constant_propagation defs labeled1 rest with
      | none => none
      | some (labeled2, rest') => some (labeled2, b' :: rest')

end UC

namespace UC

theorem key_mem_of_mem {K V : Type} [DecidableEq K] {l : List (K × V)}
    {k : K} {v : V} (h : (k, v) ∈ l) : k ∈ dictKeys l := by
  induction l with
  | nil => simp at h
  | cons p t ih =>
    obtain ⟨k1, v1⟩ := p
    rcases List.mem_cons.mp h with h | h
    · simp [Prod.ext_iff] at h
      simp [h.1]
    · simp [List.mem_cons, ih h]

theorem dictGet_of_mem_nodup {K V : Type} [DecidableEq K] {l : List (K × V)}
    {k : K} {v : V} (hm : (k, v) ∈ l) (hnd : (dictKeys l).Nodup) :
    dictGet l k = some v := by
  induction l with
  | nil => simp at hm
  | cons p t ih =>
    obtain ⟨k1, v1⟩ := p
    rw [dictKeys_cons, List.nodup_cons] at hnd
    rcases List.mem_cons.mp hm with h | h
    · obtain ⟨rfl, rfl⟩ := Prod.mk.injEq .. ▸ h
      simp [dictGet]
    · have hk : k ≠ k1 := by
        rintro rfl
        exact hnd.1 (key_mem_of_mem h)
      simp [dictGet, hk, ih h hnd.2]

/-- Invariant maintained on a block's `numerated_code` by the
per-instruction loop of constant propagation: each entry is unchanged,
or was a load whose rewrite was sanctioned by a successful
`check_constant_propagation` (on the pass's state at that moment) and is
now the corresponding literal with the same target. -/
def NumInv (defs : List (Str × List Nat)) (orig num : List (Nat × Inst)) : Prop :=
  ∀ k inst, dictGet orig k = some inst →
    dictGet num k = some inst ∨
    (startswith (op0 inst) ("load".toList) = true ∧
     ∃ L C v, check_constant_propagation defs L C (arg inst 1) = some (some v) ∧
       dictGet num k = some (rewritten_load v inst))

theorem cp_loop_spec (defs : List (Str × List Nat)) (orig : List (Nat × Inst))
    (hnd : (dictKeys orig).Nodup) :
    ∀ (items : List (Nat × Inst)), (∀ p ∈ items, p ∈ orig) →
    ∀ (labeled num : List (Nat × Inst)) (cds : List Nat)
      (labeled' num' : List (Nat × Inst)),
      cp_loop defs items labeled num cds = some (labeled', num') →
      dictKeys num = dictKeys orig → NumInv defs orig num →
      dictKeys num' = dictKeys orig ∧ NumInv defs orig num' := by
  intro items
  induction items with
  | nil =>
    intro _ labeled num cds labeled' num' h hkeys hinv
    simp only [cp_loop, Option.some.injEq, Prod.mk.injEq] at h
    obtain ⟨rfl, rfl⟩ := h
    exact ⟨hkeys, hinv⟩
  | cons p rest ih =>
    obtain ⟨index, inst⟩ := p
    intro hsub labeled num cds labeled' num' h hkeys hinv
    have hmem : (index, inst) ∈ orig := hsub _ (by simp)
    have hsub' : ∀ q ∈ rest, q ∈ orig := fun q hq => hsub q (by simp [hq])
    cases hload : startswith (op0 inst) ("load".toList) with
    | false =>
      simp only [cp_loop, hload, Bool.false_eq_true, if_false] at h
      cases higk : instruction_gen_kill defs inst index with
      | none => rw [higk] at h; simp at h
      | some gk =>
        obtain ⟨g, k⟩ := gk
        rw [higk] at h
        simp only at h
        exact ih hsub' _ _ _ _ _ h hkeys hinv
    | true =>
      simp only [cp_loop, hload, if_true] at h
      cases hchk : check_constant_propagation defs labeled cds (arg inst 1) with
      | none => rw [hchk] at h; simp at h
      | some ev =>
        rw [hchk] at h
        cases ev with
        | none =>
          simp only at h
          cases higk : instruction_gen_kill defs inst index with
          | none => rw [higk] at h; simp at h
          | some gk =>
            obtain ⟨g, k⟩ := gk
            rw [higk] at h
            simp only at h
            exact ih hsub' _ _ _ _ _ h hkeys hinv
        | some v =>
          simp only at h
          cases higk : instruction_gen_kill defs inst index with
          | none => rw [higk] at h; simp at h
          | some gk =>
            obtain ⟨g, k⟩ := gk
            rw [higk] at h
            simp only at h
            have hko : index ∈ dictKeys orig := key_mem_of_mem hmem
            have hkeys1 : dictKeys (dictSet num index (rewritten_load v inst)) =
                dictKeys orig := by
              rw [dictKeys_dictSet num index _ (hkeys ▸ hko), hkeys]
            have hinv1 : NumInv defs orig
                (dictSet num index (rewritten_load v inst)) := by
              intro k0 inst0 h0
              by_cases hk0 : k0 = index
              · subst hk0
                have : inst0 = inst := by
                  have := dictGet_of_mem_nodup hmem hnd
                  rw [this] at h0
                  exact (Option.some.injEq _ _ ▸ h0).symm
                subst this
                exact Or.inr ⟨hload, labeled, cds, v, hchk, by simp⟩
              · rw [dictGet_dictSet_ne num _ hk0]
                exact hinv k0 inst0 h0
            exact ih hsub' _ _ _ _ _ h hkeys1 hinv1

/-- Relation between a block before and after constant propagation. -/
def CpBlockRel (defs : List (Str × List Nat)) (b b' : DBlock) : Prop :=
  b'.label = b.label ∧ b'.insts = b.insts ∧ b'.in_RD = b.in_RD ∧
  b'.out_set = b.out_set ∧ b'.used = b.used ∧
  dictKeys b'.numerated = dictKeys b.numerated ∧
  NumInv defs b.numerated b'.numerated

theorem cp_block_spec (defs : List (Str × List Nat))
    (labeled labeled' : List (Nat × Inst)) (b b' : DBlock)
    (hnd : (dictKeys b.numerated).Nodup)
    (h : cp_block defs labeled b = some (labeled', b')) :
    CpBlockRel defs b b' := by
  unfold cp_block at h
  cases hcl : cp_loop defs b.numerated labeled b.numerated b.in_RD with
  | none => rw [hcl] at h; simp at h
  | some r =>
    obtain ⟨lab1, num1⟩ := r
    rw [hcl] at h
    simp only [Option.some.injEq, Prod.mk.injEq] at h
    obtain ⟨rfl, rfl⟩ := h
    have hspec := cp_loop_spec defs b.numerated hnd b.numerated
      (fun p hp => hp) labeled b.numerated b.in_RD lab1 num1 hcl rfl
      (fun k inst h0 => Or.inl h0)
    exact ⟨rfl, rfl, rfl, rfl, rfl, hspec.1, hspec.2⟩

theorem constant_propagation_spec (defs : List (Str × List Nat)) :
    ∀ (blocks : List DBlock) (labeled labeled' : List (Nat × Inst))
      (blocks' : List DBlock),
      constant_propagation defs labeled blocks = some (labeled', blocks') →
      (∀ b ∈ blocks, (dictKeys b.numerated).Nodup) →
      List.Forall₂ (CpBlockRel defs) blocks blocks' := by
  intro blocks
  induction blocks with
  | nil =>
    intro labeled labeled' blocks' h _
    simp only [constant_propagation, Option.some.injEq, Prod.mk.injEq] at h
    rw [← h.2]
    exact List.Forall₂.nil
  | cons b rest ih =>
    intro labeled labeled' blocks' h hnd
    simp only [constant_propagation] at h
    cases hcb : cp_block defs labeled b with
    | none => rw [hcb] at h; simp at h
    | some r =>
      obtain ⟨lab1, b1⟩ := r
      rw [hcb] at h
      simp only at h
      cases hrest : constant_propagation defs lab1 rest with
      | none => rw [hrest] at h; simp at h
      | some r2 =>
        obtain ⟨lab2, rest2⟩ := r2
        rw [hrest] at h
        simp only [Option.some.injEq, Prod.mk.injEq] at h
        obtain ⟨rfl, rfl⟩ := h
        exact List.Forall₂.cons
          (cp_block_spec defs labeled lab1 b b1 (hnd b (by simp)) hcb)
          (ih lab1 lab2 rest2 hrest (fun b2 hb2 => hnd b2 (by simp [hb2])))

end UC

namespace UC

theorem check_loop_stores (defs : List (Str × List Nat))
    (labeled : List (Nat × Inst)) (varDefs : List Nat) :
    ∀ (cds : List Nat) (cv : Option Opnd) (v : Opnd),
      check_loop defs labeled varDefs cds cv = some (some v) →
      ∀ d ∈ cds, d ∈ varDefs →
        ∃ inst, dictGet labeled d = some inst ∧
          startswith (op0 inst) ("store".toList) = true := by
  intro cds
  induction cds with
  | nil => intro cv v h d hd; simp at hd
  | cons d0 rest ih =>
    intro cv v h d hd hdv
    by_cases hd0 : d0 ∈ varDefs
    · simp only [check_loop, hd0, if_true] at h
      cases hget : dictGet labeled d0 with
      | none => rw [hget] at h; simp at h
      | some inst =>
        rw [hget] at h
        simp only at h
        cases hst : startswith (op0 inst) ("store".toList) with
        | false =>
          rw [hst] at h
          simp at h
        | true =>
          rw [hst] at h
          simp only [if_true] at h
          cases harg : arg inst 1 with
          | s src =>
            rw [harg] at h
            simp only at h
            cases hsd : dictGet defs src with
            | none => rw [hsd] at h; simp at h
            | some srcDefs =>
              rw [hsd] at h
              simp only at h
              cases hsc : literal_scan labeled srcDefs cv with
              | none => rw [hsc] at h; simp at h
              | some cv1 =>
                rw [hsc] at h
                simp only at h
                rcases List.mem_cons.mp hd with rfl | hd'
                · exact ⟨inst, hget, hst⟩
                · exact ih cv1 v h d hd' hdv
          | i w => rw [harg] at h; simp at h
          | ps w => rw [harg] at h; simp at h
    · simp only [check_loop, hd0, if_false] at h
      rcases List.mem_cons.mp hd with rfl | hd'
      · exact absurd hdv hd0
      · exact ih cv v h d hd' hdv

theorem check_ccp_only_if (defs : List (Str × List Nat))
    (labeled : List (Nat × Inst)) (cds : List Nat) (x : Str) (v : Opnd)
    (h : check_constant_propagation defs labeled cds (.s x) = some (some v)) :
    (∃ c cs, x = c :: cs ∧ c ≠ '@') ∧
    ∃ varDefs, dictGet defs x = some varDefs ∧
      ∀ d ∈ cds, d ∈ varDefs →
        ∃ inst, dictGet labeled d = some inst ∧
          startswith (op0 inst) ("store".toList) = true := by
  cases x with
  | nil => simp [check_constant_propagation] at h
  | cons c cs =>
    by_cases hc : c = '@'
    · simp [check_constant_propagation, hc] at h
    · simp only [check_constant_propagation, hc, if_false] at h
      cases hgd : dictGet defs (c :: cs) with
      | none => rw [hgd] at h; simp at h
      | some varDefs =>
        rw [hgd] at h
        simp only at h
        exact ⟨⟨c, cs, rfl, hc⟩, varDefs, rfl,
          check_loop_stores defs labeled varDefs cds none v h⟩

/-- C4 (amended): during constant propagation a `load` of `x` is
rewritten only when a `check_constant_propagation` call on the pass's
current state succeeded, and the replacement is a literal with the same
index and target; a successful check requires `x` not to be a global
name, `x` to be in the def-map, and every reaching definition of `x`
(every member of the supplied running set that is in `def-map[x]`) to be
a `store` instruction.  The stored values need not all be the same
literal constant: the literal-consistency scan resets after a reaching
store of a non-literal value, so a later reaching store of a literal can
still trigger the rewrite.  Loads for which the check fails, and all
other instructions, are left unchanged. -/
theorem constant_propagation_amended :
    (∀ (defs : List (Str × List Nat)) (labeled : List (Nat × Inst))
       (cds : List Nat) (x : Str) (v : Opnd),
       check_constant_propagation defs labeled cds (.s x) = some (some v) →
       (∃ c cs, x = c :: cs ∧ c ≠ '@') ∧
       ∃ varDefs, dictGet defs x = some varDefs ∧
         ∀ d ∈ cds, d ∈ varDefs →
           ∃ inst, dictGet labeled d = some inst ∧
             startswith (op0 inst) ("store".toList) = true) ∧
    (∀ (defs : List (Str × List Nat)) (labeled labeled' : List (Nat × Inst))
       (blocks blocks' : List DBlock),
       constant_propagation defs labeled blocks = some (labeled', blocks') →
       (∀ b ∈ blocks, (dictKeys b.numerated).Nodup) →
       List.Forall₂ (fun b b' => ∀ k inst,
         dictGet b.numerated k = some inst →
         dictGet b'.numerated k = some inst ∨
         (startswith (op0 inst) ("load".toList) = true ∧
          ∃ L C v,
            check_constant_propagation defs L C (arg inst 1) = some (some v) ∧
            dictGet b'.numerated k = some (rewritten_load v inst)))
         blocks blocks') := by
  constructor
  · exact check_ccp_only_if
  · intro defs labeled labeled' blocks blocks' h hnd
    exact (constant_propagation_spec defs blocks labeled labeled' blocks' h
      hnd).imp fun _ _ hb => hb.2.2.2.2.2.2

end UC

namespace UC

/-- A default block, used only with `List.getD`. -/
def dfltB : DBlock := ⟨[], [], [], [], [], []⟩

/-- C10: constant propagation only ever modifies instructions whose
opcode begins with `load`; every other entry is identical before and
after the pass, a rewritten load becomes a literal at the same index
with the same target, and the block list's length, labels, instruction
lists, numbering keys (in order) and instruction counts are unchanged. -/
theorem constant_propagation_frame
    (defs : List (Str × List Nat)) (labeled labeled' : List (Nat × Inst))
    (blocks blocks' : List DBlock)
    (h : constant_propagation defs labeled blocks = some (labeled', blocks'))
    (hnd : ∀ b ∈ blocks, (dictKeys b.numerated).Nodup) :
    blocks'.length = blocks.length ∧
    List.Forall₂ (fun b b' =>
      b'.label = b.label ∧ b'.insts = b.insts ∧
      dictKeys b'.numerated = dictKeys b.numerated ∧
      b'.numerated.length = b.numerated.length ∧
      ∀ k inst, dictGet b.numerated k = some inst →
        (startswith (op0 inst) ("load".toList) = false →
          dictGet b'.numerated k = some inst) ∧
        (startswith (op0 inst) ("load".toList) = true →
          dictGet b'.numerated k = some inst ∨
          ∃ v, dictGet b'.numerated k = some (rewritten_load v inst)))
      blocks blocks' := by
  have hspec := constant_propagation_spec defs blocks labeled labeled' blocks' h hnd
  refine ⟨hspec.length_eq.symm, hspec.imp fun b b' hb => ?_⟩
  obtain ⟨hl, hi, _, _, _, hkeys, hinv⟩ := hb
  have hlen : b'.numerated.length = b.numerated.length := by
    have h1 : (dictKeys b'.numerated).length = (dictKeys b.numerated).length := by
      rw [hkeys]
    simpa [dictKeys] using h1
  refine ⟨hl, hi, hkeys, hlen, fun k inst hk => ⟨fun hnl => ?_, fun hld => ?_⟩⟩
  · rcases hinv k inst hk with h1 | h1
    · exact h1
    · rw [h1.1] at hnl
      cases hnl
  · rcases hinv k inst hk with h1 | h1
    · exact Or.inl h1
    · obtain ⟨_, L, C, v, _, hv⟩ := h1
      exact Or.inr ⟨v, hv⟩

/-- The function CFG of the C4 counterexample, as the IR generator
would produce it for
`int main() { int x; x = f(); if (c) { x = 5; } ... x ...; }`:
`x` is stored from a `call` result on one path and from the literal `5`
on the other, and both stores reach the final `load` of `x`.  The
third block's `in_RD` is the converged reaching set at its entry. -/
def c4blocks : List DBlock :=
  [⟨"%main".toList,
    [[.s "define_int".toList, .s "@main".toList, .ps []],
     [.s "entry".toList],
     [.s "alloc_int".toList, .s "%x".toList],
     [.s "call_int".toList, .s "@f".toList, .s "%1".toList],
     [.s "store_int".toList, .s "%1".toList, .s "%x".toList],
     [.s "literal_bool".toList, .i 1, .s "%2".toList],
     [.s "cbranch".toList, .s "%2".toList, .s "%then".toList, .s "%if.end".toList]],
    [], [], [], []⟩,
   ⟨"then".toList,
    [[.s "then:".toList],
     [.s "literal_int".toList, .i 5, .s "%3".toList],
     [.s "store_int".toList, .s "%3".toList, .s "%x".toList],
     [.s "jump".toList, .s "%if.end".toList]],
    [], [], [], []⟩,
   ⟨"if.end".toList,
    [[.s "if.end:".toList],
     [.s "load_int".toList, .s "%x".toList, .s "%4".toList]],
    [], [4, 5, 6, 9, 10], [], []⟩]

/-- The numbering pass over the counterexample CFG. -/
def c4numbered : List DBlock × NumState := number_instructions c4blocks []

set_option maxRecDepth 40000 in
/-- C4 counterexample: running `constant_propagation` on `c4blocks`
(after `number_instructions`) rewrites the `load` of `%x` at index 13
into `literal_int 5 %4`, although the reaching definition 5 of `%x` is
`store_int %1 %x` and the only definition of `%1` is the `call` at
index 4 — not a literal.  So a load is rewritten even though not every
reaching definition of `x` is a store of the same literal constant: the
scan merely resets at the call-valued store and a later literal-valued
store decides the rewrite. -/
theorem constant_propagation_counterexample :
    ((constant_propagation c4numbered.2.defs c4numbered.2.labeled
        c4numbered.1).map
      (fun r => dictGet ((r.2.getD 2 dfltB).numerated) 13)) =
      some (some [.s "literal_int".toList, .i 5, .s "%4".toList]) ∧
    (5 ∈ (c4numbered.1.getD 2 dfltB).in_RD) ∧
    dictGet c4numbered.2.defs ("%x".toList) = some [5, 10] ∧
    dictGet c4numbered.2.labeled 5 =
      some [.s "store_int".toList, .s "%1".toList, .s "%x".toList] ∧
    dictGet c4numbered.2.defs ("%1".toList) = some [4] ∧
    dictGet c4numbered.2.labeled 4 =
      some [.s "call_int".toList, .s "@f".toList, .s "%1".toList] ∧
    startswith (op0 [.s "call_int".toList, .s "@f".toList, .s "%1".toList])
      ("literal".toList) = false := by
  refine ⟨?_, ?_, ?_, ?_, ?_, ?_, ?_⟩ <;> decide

end UC

namespace UC

/-- Def-map for the C4 witness. -/
def c4wdefs : List (Str × List Nat) :=
  [("%y".toList, [1]), ("%t".toList, [2])]

/-- Labeled code for the C4 witness: a store of a literal-valued temp. -/
def c4wlab : List (Nat × Inst) :=
  [(1, [.s "store_int".toList, .s "%t".toList, .s "%y".toList]),
   (2, [.s "literal_int".toList, .i 7, .s "%t".toList])]

/-- One-block chain for the C4 witness; its only instruction is a jump,
which constant propagation leaves alone. -/
def c4wblocks : List DBlock :=
  [⟨"b".toList, [], [(1, [.s "jump".toList, .s "%exit".toList])], [], [], []⟩]

/-- Witness for the amended C4 theorem: the check-level part applied to
a successful concrete check, and the pass-level part applied to a
concrete one-block chain. -/
theorem constant_propagation_amended_witness :
    ((∃ c cs, ("%y".toList : Str) = c :: cs ∧ c ≠ '@') ∧
      ∃ varDefs, dictGet c4wdefs ("%y".toList) = some varDefs ∧
        ∀ d ∈ [1], d ∈ varDefs →
          ∃ inst, dictGet c4wlab d = some inst ∧
            startswith (op0 inst) ("store".toList) = true) ∧
    List.Forall₂ (fun b b' => ∀ k inst,
      dictGet b.numerated k = some inst →
      dictGet b'.numerated k = some inst ∨
      (startswith (op0 inst) ("load".toList) = true ∧
       ∃ L C v,
         check_constant_propagation c4wdefs L C (arg inst 1) = some (some v) ∧
         dictGet b'.numerated k = some (rewritten_load v inst)))
      c4wblocks c4wblocks := by
  constructor
  · exact constant_propagation_amended.1 c4wdefs c4wlab [1] ("%y".toList)
      (.i 7) (by decide)
  · exact constant_propagation_amended.2 c4wdefs [] [] c4wblocks c4wblocks
      (by decide) (by decide)

/-- One-block chain for the C10 witness. -/
def c10blocks : List DBlock :=
  [⟨"b".toList, [], [(1, [.s "entry".toList])], [], [], []⟩]

/-- Witness for C10 on a concrete one-block chain: the pass succeeds and
preserves the block structure. -/
theorem constant_propagation_frame_witness :
    c10blocks.length = c10blocks.length ∧
    List.Forall₂ (fun b b' =>
      b'.label = b.label ∧ b'.insts = b.insts ∧
      dictKeys b'.numerated = dictKeys b.numerated ∧
      b'.numerated.length = b.numerated.length ∧
      ∀ k inst, dictGet b.numerated k = some inst →
        (startswith (op0 inst) ("load".toList) = false →
          dictGet b'.numerated k = some inst) ∧
        (startswith (op0 inst) ("load".toList) = true →
          dictGet b'.numerated k = some inst ∨
          ∃ v, dictGet b'.numerated k = some (rewritten_load v inst)))
      c10blocks c10blocks := by
  exact constant_propagation_frame [] [] [] c10blocks c10blocks (by decide)
    (by decide)

end UC

namespace UC

/-! ### Dead-code elimination and final emission (uc_analysis.py) -/

/-- Python `x in l` for an operand against a list of strings (values of
other types are never equal to a string). -/
def opnd_in (o : Opnd) (l : List Str) : Bool :=
  match o with
  | .s t => decide (t ∈ l)
  | _ => false

/-- The `binary_ops` loop of `deadcode_elimination` for one instruction. -/
def dce_bin (out_set used : List Str) (k : Nat) (inst : Inst) :
    List Str → List Nat
  | [] => []
  | p :: rest =>
    (if startswith (op0 inst) p then
       (if ¬ (opnd_in (arg inst 3) out_set) ∧ ¬ (opnd_in (arg inst 3) used)
        then [k] else [])
     else []) ++ dce_bin out_set used k inst rest

/-- The dead marks `deadcode_elimination` produces for one instruction:
the `store`/`literal`/`load` chain, then the binary-op loop, then the
separate `call` check. -/
def dce_inst (out_set used : List Str) (k : Nat) (inst : Inst) : List Nat :=
  (if startswith (op0 inst) ("store".toList) then
     (if ¬ (opnd_in (arg inst 2) out_set) ∧ ¬ (opnd_in (arg inst 2) used)
      then [k] else [])
   else if startswith (op0 inst) ("literal".toList) then
     (if ¬ (opnd_in (arg inst 2) out_set) ∧ ¬ (opnd_in (arg inst 2) used)
      then [k] else [])
   else if startswith (op0 inst) ("load".toList) then
     (if ¬ (opnd_in (arg inst 2) out_set) ∧ ¬ (opnd_in (arg inst 2) used)
      then [k] else [])
   else []) ++
  dce_bin out_set used k inst binary_ops ++
  (if startswith (op0 inst) ("call".toList) then
     (if ¬ (opnd_in (arg inst 2) out_set) ∧ ¬ (opnd_in (arg inst 2) used)
      then [k] else [])
   else [])

/-- Dead marks of one block. -/
def dce_block (b : DBlock) : List Nat :=
  b.numerated.foldl (fun acc p => acc ++ dce_inst b.out_set b.used p.1 p.2) []

/-- `DataFlow.deadcode_elimination` over the chain (`self.dead_code` is
reset on entry). -/
def deadcode_elimination (blocks : List DBlock) : List Nat :=
  blocks.foldl (fun acc b => acc ++ dce_block b) []

/-- `DataFlow.appendOptimizedCode`: append every labeled instruction
whose index is not marked dead to the running code list. -/
def appendOptimizedCode (labeled : List (Nat × Inst)) (dead : List Nat)
    (code : List Inst) : List Inst :=
  labeled.foldl (fun acc p => if p.1 ∈ dead then acc else acc ++ [p.2]) code

/-- The opcode prefixes the claim calls side-effecting. -/
def side_effect_prefixes : List Str :=
  ["print".toList, "cbranch".toList, "jump".toList, "return".toList,
   "param".toList, "elem".toList, "sitofp".toList, "fptosi".toList]

/-- The opcode prefixes that `deadcode_elimination` can mark dead. -/
def dead_prefixes : List Str :=
  ["store".toList, "literal".toList, "load".toList, "call".toList] ++
  binary_ops

theorem mem_foldl_append {γ δ : Type} (f : δ → List γ) :
    ∀ (l : List δ) (acc : List γ) (x : γ),
      x ∈ l.foldl (fun a d => a ++ f d) acc ↔ x ∈ acc ∨ ∃ d ∈ l, x ∈ f d := by
  intro l
  induction l with
  | nil => intro acc x; simp
  | cons d t ih =>
    intro acc x
    rw [List.foldl_cons, ih]
    simp only [List.mem_append, List.mem_cons]
    constructor
    · rintro ((h | h) | ⟨d1, hd1, hx⟩)
      · exact Or.inl h
      · exact Or.inr ⟨d, Or.inl rfl, h⟩
      · exact Or.inr ⟨d1, Or.inr hd1, hx⟩
    · rintro (h | ⟨d1, (rfl | hd1), hx⟩)
      · exact Or.inl (Or.inl h)
      · exact Or.inl (Or.inr hx)
      · exact Or.inr ⟨d1, hd1, hx⟩

theorem dce_bin_mem (out_set used : List Str) (k : Nat) (inst : Inst) :
    ∀ (ps : List Str) (x : Nat), x ∈ dce_bin out_set used k inst ps →
      x = k ∧ ∃ p ∈ ps, startswith (op0 inst) p = true := by
  intro ps
  induction ps with
  | nil => intro x hx; simp [dce_bin] at hx
  | cons p rest ih =>
    intro x hx
    rw [dce_bin, List.mem_append] at hx
    rcases hx with hx | hx
    · by_cases hp : startswith (op0 inst) p = true
      · rw [if_pos hp] at hx
        by_cases hc : ¬ (opnd_in (arg inst 3) out_set) ∧
            ¬ (opnd_in (arg inst 3) used)
        · rw [if_pos hc] at hx
          simp at hx
          exact ⟨hx, p, by simp, hp⟩
        · rw [if_neg hc] at hx
          simp at hx
      · rw [if_neg hp] at hx
        simp at hx
    · obtain ⟨hxk, p1, hp1, hsw⟩ := ih x hx
      exact ⟨hxk, p1, by simp [hp1], hsw⟩

theorem dce_inst_mem (out_set used : List Str) (k : Nat) (inst : Inst)
    (x : Nat) (hx : x ∈ dce_inst out_set used k inst) :
    x = k ∧ ∃ q ∈ dead_prefixes, startswith (op0 inst) q = true := by
  unfold dce_inst at hx
  rw [List.mem_append, List.mem_append] at hx
  rcases hx with (hx | hx) | hx
  · by_cases h1 : startswith (op0 inst) ("store".toList) = true
    · rw [if_pos h1] at hx
      split at hx <;> simp at hx
      exact ⟨hx, "store".toList, by simp [dead_prefixes], h1⟩
    · rw [if_neg h1] at hx
      by_cases h2 : startswith (op0 inst) ("literal".toList) = true
      · rw [if_pos h2] at hx
        split at hx <;> simp at hx
        exact ⟨hx, "literal".toList, by simp [dead_prefixes], h2⟩
      · rw [if_neg h2] at hx
        by_cases h3 : startswith (op0 inst) ("load".toList) = true
        · rw [if_pos h3] at hx
          split at hx <;> simp at hx
          exact ⟨hx, "load".toList, by simp [dead_prefixes], h3⟩
        · rw [if_neg h3] at hx
          simp at hx
  · obtain ⟨hxk, p, hp, hsw⟩ := dce_bin_mem out_set used k inst binary_ops x hx
    exact ⟨hxk, p, by simp [dead_prefixes, List.mem_append, hp], hsw⟩
  · by_cases h4 : startswith (op0 inst) ("call".toList) = true
    · rw [if_pos h4] at hx
      split at hx <;> simp at hx
      exact ⟨hx, "call".toList, by simp [dead_prefixes], h4⟩
    · rw [if_neg h4] at hx
      simp at hx

theorem deadcode_elimination_mem (blocks : List DBlock) (x : Nat)
    (hx : x ∈ deadcode_elimination blocks) :
    ∃ b ∈ blocks, ∃ p ∈ b.numerated, x = p.1 ∧
      ∃ q ∈ dead_prefixes, startswith (op0 p.2) q = true := by
  unfold deadcode_elimination at hx
  rw [mem_foldl_append] at hx
  rcases hx with hx | ⟨b, hb, hx⟩
  · simp at hx
  · unfold dce_block at hx
    rw [mem_foldl_append (fun p : Nat × Inst =>
      dce_inst b.out_set b.used p.1 p.2) b.numerated [] x] at hx
    rcases hx with hx | ⟨p, hp, hx⟩
    · simp at hx
    · obtain ⟨hxk, hq⟩ := dce_inst_mem b.out_set b.used p.1 p.2 x hx
      exact ⟨b, hb, p, hp, hxk, hq⟩

theorem appendOptimizedCode_mono (dead : List Nat) :
    ∀ (t : List (Nat × Inst)) (c : List Inst) (inst : Inst), inst ∈ c →
      inst ∈ t.foldl (fun acc p => if p.1 ∈ dead then acc else acc ++ [p.2]) c := by
  intro t
  induction t with
  | nil => intro c inst hc; simpa using hc
  | cons q r ihr =>
    intro c inst hc
    rw [List.foldl_cons]
    by_cases hq : q.1 ∈ dead
    · rw [if_pos hq]; exact ihr _ _ hc
    · rw [if_neg hq]; exact ihr _ _ (by simp [hc])

theorem appendOptimizedCode_mem (labeled : List (Nat × Inst))
    (dead : List Nat) :
    ∀ (code : List Inst) (k : Nat) (inst : Inst),
      (k, inst) ∈ labeled → k ∉ dead →
      inst ∈ appendOptimizedCode labeled dead code := by
  induction labeled with
  | nil => intro code k inst h _; simp at h
  | cons p t ih =>
    intro code k inst h hk
    rcases List.mem_cons.mp h with rfl | h
    · rw [appendOptimizedCode, List.foldl_cons, if_neg hk]
      exact appendOptimizedCode_mono dead t _ inst (by simp)
    · rw [appendOptimizedCode, List.foldl_cons]
      by_cases hq : p.1 ∈ dead
      · rw [if_pos hq]; exact ih code k inst h hk
      · rw [if_neg hq]; exact ih _ k inst h hk

/-- C5: an instruction in the labeled code whose opcode begins with
`print`, `cbranch`, `jump`, `return`, `param`, `elem`, `sitofp` or
`fptosi` is never marked dead and survives into the emitted list,
provided (as the pipeline guarantees) that the blocks' numbered entries
agree with `labeled_code` at each index. -/
theorem deadcode_preserves_side_effects
    (blocks : List DBlock) (labeled : List (Nat × Inst)) (code : List Inst)
    (hagree : ∀ b ∈ blocks, ∀ p ∈ b.numerated, ∀ inst,
      (p.1, inst) ∈ labeled → p.2 = inst)
    (k : Nat) (inst : Inst) (hmem : (k, inst) ∈ labeled)
    (hprot : ∃ p ∈ side_effect_prefixes, startswith (op0 inst) p = true) :
    inst ∈ appendOptimizedCode labeled (deadcode_elimination blocks) code := by
  have hpairs : ∀ p ∈ side_effect_prefixes, ∀ q ∈ dead_prefixes,
      ¬ (startswith p q = true ∨ startswith q p = true) := by decide
  refine appendOptimizedCode_mem labeled _ code k inst hmem ?_
  intro hdead
  obtain ⟨b, hb, pr, hpr, rfl, q, hq, hsw⟩ :=
    deadcode_elimination_mem blocks k hdead
  have : pr.2 = inst := hagree b hb pr hpr inst hmem
  rw [this] at hsw
  obtain ⟨p, hp, hswp⟩ := hprot
  have := startswith_false_of_incomp (hpairs p hp q hq) hswp
  rw [hsw] at this
  cases this

/-- Blocks and labeled code for the C5 witness. -/
def c5wblocks : List DBlock :=
  [⟨"b".toList, [],
    [(1, [.s "print_int".toList, .s "%1".toList]),
     (2, [.s "literal_int".toList, .i 3, .s "%2".toList])],
    [], [], []⟩]

def c5wlab : List (Nat × Inst) :=
  [(1, [.s "print_int".toList, .s "%1".toList]),
   (2, [.s "literal_int".toList, .i 3, .s "%2".toList])]

/-- Witness for C5: in a block where the dead literal at index 2 is
eliminated, the `print` at index 1 survives. -/
theorem deadcode_preserves_side_effects_witness :
    ([.s "print_int".toList, .s "%1".toList] : Inst) ∈
      appendOptimizedCode c5wlab (deadcode_elimination c5wblocks) [] := by
  refine deadcode_preserves_side_effects c5wblocks c5wlab []
    ?_ 1 [.s "print_int".toList, .s "%1".toList] (by decide)
    ⟨"print".toList, by decide, by decide⟩
  intro b hb p hp inst hinst
  simp only [c5wblocks, List.mem_singleton] at hb
  subst hb
  simp only [List.mem_cons, List.not_mem_nil, or_false] at hp
  rcases hp with rfl | rfl
  · simp only [c5wlab, List.mem_cons, List.not_mem_nil, or_false,
      Prod.mk.injEq] at hinst
    rcases hinst with ⟨_, rfl⟩ | ⟨h12, _⟩
    · rfl
    · exact absurd h12 (by decide)
  · simp only [c5wlab, List.mem_cons, List.not_mem_nil, or_false,
      Prod.mk.injEq] at hinst
    rcases hinst with ⟨h21, _⟩ | ⟨_, rfl⟩
    · exact absurd h21 (by decide)
    · rfl

end UC

namespace UC

/-! ### The optimisation pipeline of `DataFlow.visit_Program` (C8)

The reaching-definition and live-variable solvers only fill the blocks'
`in_RD` / `out_set` / `used` fields, so the pipeline below takes those
fields as given on the input blocks and the length claim is proved for
every value of them. -/

/-- Total number of instructions in a function's blocks. -/
def sumInsts (blocks : List DBlock) : Nat :=
  (blocks.map (fun b => b.insts.length)).sum

/-- The per-function body of `DataFlow.visit_Program`: reset the
def-map, number the instructions, run constant propagation, mark dead
code, and append the surviving instructions to the running code list. -/
def optFunction (code : List Inst) (blocks : List DBlock) :
    Option (List Inst) :=
  let r := number_instructions blocks []
  match constant_propagation r.2.defs r.2.labeled r.1 with
  | none => none
  | some (labeled2, blocks2) =>
    some (appendOptimizedCode labeled2 (deadcode_elimination blocks2) code)

/-- `DataFlow.visit_Program`: the optimised program is the global text
followed by each function's surviving instructions. -/
def visit_Program_opt (text : List Inst) (funcs : List (List DBlock)) :
    Option (List Inst) :=
  funcs.foldl
    (fun acc blocks =>
      match acc with
      | none => none
      | some code => optFunction code blocks) (some text)

/-- `CodeGenerator.visit_Program`: the unoptimised program is the global
text followed by every block's instructions, in chain order. -/
def visit_Program_gen (text : List Inst) (funcs : List (List DBlock)) :
    List Inst :=
  text ++ funcs.foldl
    (fun acc bs => acc ++ bs.foldl (fun a b => a ++ b.insts) []) []

theorem mem_dictSet {K V : Type} [DecidableEq K] :
    ∀ (l : List (K × V)) (k : K) (v : V) (p : K × V),
      p ∈ dictSet l k v → p ∈ l ∨ p.1 = k := by
  intro l
  induction l with
  | nil => intro k v p hp; simp [dictSet] at hp; simp [hp]
  | cons q t ih =>
    intro k v p hp
    obtain ⟨k1, v1⟩ := q
    by_cases h1 : k = k1
    · rw [dictSet, if_pos h1] at hp
      rcases List.mem_cons.mp hp with rfl | hp
      · simp
      · exact Or.inl (by simp [hp])
    · rw [dictSet, if_neg h1] at hp
      rcases List.mem_cons.mp hp with rfl | hp
      · exact Or.inl (by simp)
      · rcases ih k v p hp with h | h
        · exact Or.inl (by simp [h])
        · exact Or.inr h

theorem foldl_number_step_labeled_le :
    ∀ (l : List Inst) (acc : List (Nat × Inst) × NumState),
      (l.foldl number_step acc).2.labeled.length ≤
        acc.2.labeled.length + l.length := by
  intro l
  induction l with
  | nil => intro acc; simp
  | cons i t ih =>
    intro acc
    rw [List.foldl_cons]
    calc (t.foldl number_step (number_step acc i)).2.labeled.length
        ≤ (number_step acc i).2.labeled.length + t.length := ih _
      _ ≤ acc.2.labeled.length + 1 + t.length := by
          have := dictSet_length_le acc.2.labeled acc.2.index i
          simp only [number_step]
          omega
      _ = acc.2.labeled.length + (i :: t).length := by simp; omega

theorem foldl_number_step_keys_mono :
    ∀ (l : List Inst) (acc : List (Nat × Inst) × NumState) (k : Nat),
      k ∈ dictKeys acc.2.labeled →
      k ∈ dictKeys (l.foldl number_step acc).2.labeled := by
  intro l
  induction l with
  | nil => intro acc k hk; simpa using hk
  | cons i t ih =>
    intro acc k hk
    rw [List.foldl_cons]
    exact ih _ k (mem_dictKeys_dictSet_of_mem _ _ _ _ hk)

theorem foldl_number_step_num_keys :
    ∀ (l : List Inst) (acc : List (Nat × Inst) × NumState),
      (∀ p ∈ acc.1, p.1 ∈ dictKeys acc.2.labeled) →
      ∀ p ∈ (l.foldl number_step acc).1,
        p.1 ∈ dictKeys (l.foldl number_step acc).2.labeled := by
  intro l
  induction l with
  | nil => intro acc h p hp; exact h p hp
  | cons i t ih =>
    intro acc h p hp
    rw [List.foldl_cons] at hp ⊢
    refine ih _ ?_ p hp
    intro q hq
    rcases mem_dictSet acc.1 acc.2.index i q hq with hmem | hkey
    · exact mem_dictKeys_dictSet_of_mem _ _ _ _ (h q hmem)
    · rw [hkey]
      exact self_mem_dictKeys_dictSet _ _ _

theorem number_chain_invariant :
    ∀ (blocks : List DBlock) (acc : List DBlock × NumState),
      (∀ b ∈ blocks, b.numerated = []) →
      (∀ b ∈ acc.1, ∀ p ∈ b.numerated, p.1 ∈ dictKeys acc.2.labeled) →
      ((blocks.foldl number_chain_step acc).2.labeled.length ≤
        acc.2.labeled.length + sumInsts blocks) ∧
      (∀ b ∈ (blocks.foldl number_chain_step acc).1, ∀ p ∈ b.numerated,
        p.1 ∈ dictKeys (blocks.foldl number_chain_step acc).2.labeled) := by
  intro blocks
  induction blocks with
  | nil =>
    intro acc _ hkeys
    exact ⟨by simp [sumInsts], hkeys⟩
  | cons b rest ih =>
    intro acc hfresh hkeys
    rw [List.foldl_cons]
    have hb0 : b.numerated = [] := hfresh b (by simp)
    have hstep : ∀ b1 ∈ (number_chain_step acc b).1, ∀ p ∈ b1.numerated,
        p.1 ∈ dictKeys (number_chain_step acc b).2.labeled := by
      intro b1 hb1 p hp
      simp only [number_chain_step, number_block] at hb1 ⊢
      rcases List.mem_append.mp hb1 with hb1 | hb1
      · exact foldl_number_step_keys_mono b.insts (b.numerated, acc.2) p.1
          (hkeys b1 hb1 p hp)
      · rcases List.mem_singleton.mp hb1 with rfl
        simp only at hp
        refine foldl_number_step_num_keys b.insts (b.numerated, acc.2)
          ?_ p hp
        rw [hb0]
        intro q hq
        simp at hq
    have hlen : (number_chain_step acc b).2.labeled.length ≤
        acc.2.labeled.length + b.insts.length := by
      simp only [number_chain_step, number_block]
      exact foldl_number_step_labeled_le b.insts (b.numerated, acc.2)
    obtain ⟨ih1, ih2⟩ := ih (number_chain_step acc b)
      (fun b2 hb2 => hfresh b2 (by simp [hb2])) hstep
    constructor
    · calc (rest.foldl number_chain_step (number_chain_step acc b)).2.labeled.length
          ≤ (number_chain_step acc b).2.labeled.length + sumInsts rest := ih1
        _ ≤ acc.2.labeled.length + b.insts.length + sumInsts rest := by omega
        _ = acc.2.labeled.length + sumInsts (b :: rest) := by
            simp [sumInsts]; omega
    · exact ih2

end UC

namespace UC

theorem cp_loop_labeled (defs : List (Str × List Nat)) :
    ∀ (items labeled num : List (Nat × Inst)) (cds : List Nat)
      (labeled' num' : List (Nat × Inst)),
      (∀ p ∈ items, p.1 ∈ dictKeys labeled) →
      cp_loop defs items labeled num cds = some (labeled', num') →
      labeled'.length = labeled.length ∧
      dictKeys labeled' = dictKeys labeled := by
  intro items
  induction items with
  | nil =>
    intro labeled num cds labeled' num' _ h
    simp only [cp_loop, Option.some.injEq, Prod.mk.injEq] at h
    rw [← h.1]
    exact ⟨rfl, rfl⟩
  | cons p rest ih =>
    obtain ⟨index, inst⟩ := p
    intro labeled num cds labeled' num' hkeys h
    have hik : index ∈ dictKeys labeled := hkeys (index, inst) (by simp)
    have hkr : ∀ q ∈ rest, q.1 ∈ dictKeys labeled :=
      fun q hq => hkeys q (by simp [hq])
    cases hload : startswith (op0 inst) ("load".toList) with
    | false =>
      simp only [cp_loop, hload, Bool.false_eq_true, if_false] at h
      cases higk : instruction_gen_kill defs inst index with
      | none => rw [higk] at h; simp at h
      | some gk =>
        obtain ⟨g, k⟩ := gk
        rw [higk] at h
        simp only at h
        exact ih _ _ _ _ _ hkr h
    | true =>
      simp only [cp_loop, hload, if_true] at h
      cases hchk : check_constant_propagation defs labeled cds (arg inst 1) with
      | none => rw [hchk] at h; simp at h
      | some ev =>
        rw [hchk] at h
        cases ev with
        | none =>
          simp only at h
          cases higk : instruction_gen_kill defs inst index with
          | none => rw [higk] at h; simp at h
          | some gk =>
            obtain ⟨g, k⟩ := gk
            rw [higk] at h
            simp only at h
            exact ih _ _ _ _ _ hkr h
        | some v =>
          simp only at h
          cases higk : instruction_gen_kill defs inst index with
          | none => rw [higk] at h; simp at h
          | some gk =>
            obtain ⟨g, k⟩ := gk
            rw [higk] at h
            simp only at h
            have hkeq : dictKeys (dictSet labeled index (rewritten_load v inst)) =
                dictKeys labeled := dictKeys_dictSet labeled index _ hik
            have hleq : (dictSet labeled index (rewritten_load v inst)).length =
                labeled.length := dictSet_length_of_mem labeled index _ hik
            have := ih _ _ _ _ _ (fun q hq => hkeq ▸ hkr q hq) h
            exact ⟨by omega, by rw [this.2, hkeq]⟩

theorem constant_propagation_labeled (defs : List (Str × List Nat)) :
    ∀ (blocks : List DBlock) (labeled labeled' : List (Nat × Inst))
      (blocks' : List DBlock),
      (∀ b ∈ blocks, ∀ p ∈ b.numerated, p.1 ∈ dictKeys labeled) →
      constant_propagation defs labeled blocks = some (labeled', blocks') →
      labeled'.length = labeled.length ∧
      dictKeys labeled' = dictKeys labeled := by
  intro blocks
  induction blocks with
  | nil =>
    intro labeled labeled' blocks' _ h
    simp only [constant_propagation, Option.some.injEq, Prod.mk.injEq] at h
    rw [← h.1]
    exact ⟨rfl, rfl⟩
  | cons b rest ih =>
    intro labeled labeled' blocks' hkeys h
    simp only [constant_propagation] at h
    cases hcb : cp_block defs labeled b with
    | none => rw [hcb] at h; simp at h
    | some r =>
      obtain ⟨lab1, b1⟩ := r
      rw [hcb] at h
      simp only at h
      cases hrest : constant_propagation defs lab1 rest with
      | none => rw [hrest] at h; simp at h
      | some r2 =>
        obtain ⟨lab2, rest2⟩ := r2
        rw [hrest] at h
        simp only [Option.some.injEq, Prod.mk.injEq] at h
        obtain ⟨rfl, rfl⟩ := h
        have h1 : lab1.length = labeled.length ∧
            dictKeys lab1 = dictKeys labeled := by
          unfold cp_block at hcb
          cases hcl : cp_loop defs b.numerated labeled b.numerated b.in_RD with
          | none => rw [hcl] at hcb; simp at hcb
          | some r3 =>
            obtain ⟨lab3, num3⟩ := r3
            rw [hcl] at hcb
            simp only [Option.some.injEq, Prod.mk.injEq] at hcb
            obtain ⟨rfl, rfl⟩ := hcb
            exact cp_loop_labeled defs b.numerated labeled b.numerated
              b.in_RD lab3 num3 (fun p hp => hkeys b (by simp) p hp) hcl
        have h2 := ih lab1 lab2 rest2
          (fun b2 hb2 p hp => h1.2 ▸ hkeys b2 (by simp [hb2]) p hp) hrest
        exact ⟨by omega, by rw [h2.2, h1.2]⟩

theorem appendOptimizedCode_len (dead : List Nat) :
    ∀ (labeled : List (Nat × Inst)) (code : List Inst),
      (appendOptimizedCode labeled dead code).length ≤
        code.length + labeled.length := by
  intro labeled
  induction labeled with
  | nil => intro code; simp [appendOptimizedCode]
  | cons p t ih =>
    intro code
    rw [appendOptimizedCode, List.foldl_cons]
    by_cases hp : p.1 ∈ dead
    · rw [if_pos hp]
      have := ih code
      rw [appendOptimizedCode] at this
      calc (t.foldl _ code).length ≤ code.length + t.length := this
        _ ≤ code.length + (p :: t).length := by
            simp only [List.length_cons]; omega
    · rw [if_neg hp]
      have := ih (code ++ [p.2])
      rw [appendOptimizedCode] at this
      calc (t.foldl _ (code ++ [p.2])).length
          ≤ (code ++ [p.2]).length + t.length := this
        _ = code.length + (p :: t).length := by
            simp only [List.length_append, List.length_cons,
              List.length_nil]
            omega

theorem optFunction_len (code : List Inst) (blocks : List DBlock)
    (out : List Inst) (hfresh : ∀ b ∈ blocks, b.numerated = [])
    (h : optFunction code blocks = some out) :
    out.length ≤ code.length + sumInsts blocks := by
  simp only [optFunction, number_instructions] at h
  have hnum := number_chain_invariant blocks
    ([], { labeled := [], defs := [], index := 1 }) hfresh
    (by intro b hb; simp at hb)
  cases hcp : constant_propagation
      (blocks.foldl number_chain_step
        ([], { labeled := [], defs := [], index := 1 })).2.defs
      (blocks.foldl number_chain_step
        ([], { labeled := [], defs := [], index := 1 })).2.labeled
      (blocks.foldl number_chain_step
        ([], { labeled := [], defs := [], index := 1 })).1 with
  | none => rw [hcp] at h; simp at h
  | some r =>
    obtain ⟨lab2, blocks2⟩ := r
    rw [hcp] at h
    simp only [Option.some.injEq] at h
    have hcpl := constant_propagation_labeled
      (blocks.foldl number_chain_step
        ([], { labeled := [], defs := [], index := 1 })).2.defs
      (blocks.foldl number_chain_step
        ([], { labeled := [], defs := [], index := 1 })).1
      (blocks.foldl number_chain_step
        ([], { labeled := [], defs := [], index := 1 })).2.labeled
      lab2 blocks2 hnum.2 hcp
    have happ := appendOptimizedCode_len (deadcode_elimination blocks2)
      lab2 code
    rw [← h]
    have h1 := hnum.1
    simp at h1
    omega

theorem foldl_opt_none (funcs : List (List DBlock)) :
    funcs.foldl
      (fun acc blocks =>
        match acc with
        | none => none
        | some code => optFunction code blocks)
      (none : Option (List Inst)) = none := by
  induction funcs with
  | nil => rfl
  | cons f rest ih => simpa using ih

theorem foldl_append_length {δ : Type} (f : δ → List Inst) :
    ∀ (l : List δ) (acc : List Inst),
      (l.foldl (fun a d => a ++ f d) acc).length =
        acc.length + (l.map (fun d => (f d).length)).sum := by
  intro l
  induction l with
  | nil => intro acc; simp
  | cons d t ih =>
    intro acc
    rw [List.foldl_cons, ih]
    simp
    omega

/-- C8: for every program (global text plus per-function block chains
with empty initial numbering, arbitrary solver-filled dataflow fields),
if the optimisation pipeline succeeds its output is no longer than the
generator's output. -/
theorem optimized_length_le (text : List Inst) (funcs : List (List DBlock))
    (optCode : List Inst)
    (hfresh : ∀ bs ∈ funcs, ∀ b ∈ bs, b.numerated = [])
    (h : visit_Program_opt text funcs = some optCode) :
    optCode.length ≤ (visit_Program_gen text funcs).length := by
  have hone : ∀ bs : List DBlock,
      (bs.foldl (fun a b => a ++ b.insts) []).length = sumInsts bs := by
    intro bs
    rw [foldl_append_length (fun b : DBlock => b.insts)]
    simp [sumInsts]
  have hgen : (visit_Program_gen text funcs).length =
      text.length + (funcs.map sumInsts).sum := by
    unfold visit_Program_gen
    rw [List.length_append]
    rw [foldl_append_length
      (fun bs : List DBlock => bs.foldl (fun a b => a ++ b.insts) [])]
    simp only [List.length_nil, Nat.zero_add, hone]
  rw [hgen]
  clear hgen
  induction funcs generalizing text optCode with
  | nil =>
    unfold visit_Program_opt at h
    simp only [List.foldl_nil, Option.some.injEq] at h
    simp [← h]
  | cons bs rest ih =>
    unfold visit_Program_opt at h
    rw [List.foldl_cons] at h
    simp only at h
    cases hof : optFunction text bs with
    | none =>
      rw [hof] at h
      rw [foldl_opt_none] at h
      cases h
    | some code1 =>
      rw [hof] at h
      have h1 := optFunction_len text bs code1 (hfresh bs (by simp)) hof
      have h2 := ih code1 optCode (fun bs2 hbs2 => hfresh bs2 (by simp [hbs2])) h
      simp only [List.map_cons, List.sum_cons]
      omega

end UC

namespace UC

/-- A one-function program for the C8 witness. -/
def c8wfuncs : List (List DBlock) :=
  [[⟨"%f".toList, [[.s "jump".toList, .s "%exit".toList]], [], [], [], []⟩]]

/-- Witness for C8: on a concrete one-function program the pipeline
succeeds and the optimised length is bounded by the generated length. -/
theorem optimized_length_le_witness :
    ([([.s "jump".toList, .s "%exit".toList] : Inst)]).length ≤
      (visit_Program_gen [] c8wfuncs).length :=
  optimized_length_le [] c8wfuncs [[.s "jump".toList, .s "%exit".toList]]
    (by decide) (by decide)

end UC

namespace UC

/-! ### IR generator (uc_code.py)

A shallow embedding of `CodeGenerator` for the statement fragment the
claims quantify over: compounds, scalar declarations, assignments,
print, if/while/for, assert, break and return, over constant / variable
/ binary-operation expressions (the AST arrives annotated with the
`uc_type` strings the semantic stage computed).  Blocks carry the label
and instruction list of `uc_block.Block`; `isAssertCond` is a ghost
marker set only when `visit_Assert` creates its condition block and
never read by the generator — it only names those blocks in the
theorems. -/

/-- A CFG block of the generator (in `next_block` order). -/
structure CGBlock where
  label : Str
  insts : List Inst
  isAssertCond : Bool
deriving DecidableEq

/-- Generator state: the completed blocks in chain order, the current
block, and the counters / tables of `CodeGenerator`. -/
structure CGState where
  blocks : List CGBlock
  cur : CGBlock
  tmp : Nat
  names : List (Str × Nat)
  globCount : Nat
  text : List Inst
  globals : List Str
  loopPile : List Str
  retReg : Str
deriving DecidableEq

/-- Decimal rendering of a counter. -/
def natStr (n : Nat) : Str := (Nat.repr n).toList

/-- `CodeGenerator.new_temp` (the per-function counter starts at 1). -/
def new_temp (s : CGState) : Str × CGState :=
  ("%".toList ++ natStr s.tmp, { s with tmp := s.tmp + 1 })

/-- `CodeGenerator.new_name`. -/
def new_name (names : List (Str × Nat)) (nm : Str) : Str × List (Str × Nat) :=
  match dictGet names nm with
  | some n =>
    if n > 0 then (nm ++ ".".toList ++ natStr (n + 1), dictSet names nm (n + 1))
    else (nm, dictSet names nm 1)
  | none => (nm, dictSet names nm 1)

def stNewName (s : CGState) (nm : Str) : Str × CGState :=
  let r := new_name s.names nm
  (r.1, { s with names := r.2 })

/-- `CodeGenerator.new_text` (the `_glob_` counter). -/
def new_text (s : CGState) (typename : Str) : Str × CGState :=
  ("@.".toList ++ typename ++ ".".toList ++ natStr s.globCount,
   { s with globCount := s.globCount + 1 })

/-- `CodeGenerator._get_origin`. -/
def get_origin (globals : List Str) (nm : Str) : Str :=
  if nm ∈ globals then "@".toList ++ nm else "%".toList ++ nm

/-- Append an instruction to the current block. -/
def appendInst (s : CGState) (i : Inst) : CGState :=
  { s with cur := { s.cur with insts := s.cur.insts ++ [i] } }

/-- Finish the current block (the `next_block` link) and continue in a
new one. -/
def closeCur (s : CGState) (nb : CGBlock) : CGState :=
  { s with blocks := s.blocks ++ [s.cur], cur := nb }

/-- The `binary_ops` opcode map of uc_code.py. -/
def binary_ops_map : List (Str × Str) :=
  [("+".toList, "add".toList), ("-".toList, "sub".toList),
   ("*".toList, "mul".toList), ("/".toList, "div".toList),
   ("%".toList, "mod".toList), ("<".toList, "lt".toList),
   ("<=".toList, "le".toList), (">".toList, "gt".toList),
   (">=".toList, "ge".toList), ("==".toList, "eq".toList),
   ("&&".toList, "and".toList), ("||".toList, "or".toList),
   ("!=".toList, "ne".toList)]

def binOpName (op : Str) : Str := (dictGet binary_ops_map op).getD []

/-- Annotated expressions: each node carries the rendered `uc_type`
string the semantic stage stored on it. -/
inductive Expr where
  | econst (ty : Str) (v : Int)
  | evar (ty : Str) (nm : Str)
  | ebin (op : Str) (ty : Str) (l r : Expr)
deriving DecidableEq

def exprTy : Expr → Str
  | .econst ty _ => ty
  | .evar ty _ => ty
  | .ebin _ ty _ _ => ty

/-- Expression lowering (`visit_Constant` for non-strings, `visit_ID`,
`visit_BinaryOp`): returns the updated state and the `gen_location`. -/
def genExpr : Expr → CGState → CGState × Str
  | .econst ty v, s =>
    let r := new_temp s
    (appendInst r.2 [.s ("literal_".toList ++ ty), .i v, .s r.1], r.1)
  | .evar ty nm, s =>
    let r := new_temp s
    (appendInst r.2
      [.s ("load_".toList ++ ty), .s (get_origin s.globals nm), .s r.1], r.1)
  | .ebin op _ l rr, s =>
    let a := genExpr l s
    let b := genExpr rr a.1
    let t := new_temp b.1
    (appendInst t.2
      [.s (binOpName op ++ "_".toList ++ exprTy l), .s a.2, .s b.2, .s t.1],
     t.1)

/-- Statements of the embedded fragment. -/
inductive Stmt where
  | scompound (items : List Stmt)
  | svardecl (ty : Str) (nm : Str)
  | sassign (nm : Str) (e : Expr)
  | sprint (e : Expr)
  | sif (cond : Expr) (thn : Stmt) (els : Option Stmt)
  | swhile (cond : Expr) (body : Stmt)
  | sfor (ini : Stmt) (cond : Expr) (inc : Stmt) (body : Stmt)
  | sassert (e : Expr) (coord : Str)
  | sbreak
  | sreturn (e : Option Expr)

mutual

/-- Statement lowering, mirroring the `visit_*` methods of uc_code.py
(instruction and `new_name` call order included). -/
def genStmt : Stmt → CGState → CGState
  | .scompound items, s => genStmts items s
  | .svardecl ty nm, s =>
    appendInst s [.s ("alloc_".toList ++ ty), .s ("%".toList ++ nm)]
  | .sassign nm e, s =>
    let r := genExpr e s
    appendInst r.1 [.s ("store_".toList ++ exprTy e), .s r.2,
      .s (get_origin r.1.globals nm)]
  | .sprint e, s =>
    let r := genExpr e s
    appendInst r.1
      [.s ("print_".toList ++ (splitFirstAt '[' (exprTy e)).1), .s r.2]
  | .sreturn oe, s =>
    match oe with
    | some e =>
      let r := genExpr e s
      appendInst r.1 [.s ("store_".toList ++ exprTy e), .s r.2, .s s.retReg]
    | none => s
  | .sbreak, s =>
    appendInst s
      [.s "jump".toList, .s ("%".toList ++ (s.loopPile.getLast?.getD []))]
  | .sif cond thn els, s =>
    let n1 := stNewName s ("if".toList)
    let n2 := stNewName n1.2 ("then".toList)
    (match els with
     | none =>
       let n4 := stNewName n2.2 ("if.end".toList)
       let s4 := appendInst n4.2 [.s "jump".toList, .s ("%".toList ++ n1.1)]
       let s5 := closeCur s4 ⟨n1.1, [], false⟩
       let s6 := appendInst s5 [.s (n1.1 ++ ":".toList)]
       let r := genExpr cond s6
       let s8 := appendInst r.1 [.s "cbranch".toList, .s r.2,
         .s ("%".toList ++ n2.1), .s ("%".toList ++ n4.1)]
       let s9 := closeCur s8 ⟨n2.1, [], false⟩
       let s10 := appendInst s9 [.s (n2.1 ++ ":".toList)]
       let s11 := genStmt thn s10
       let s12 := appendInst s11 [.s "jump".toList, .s ("%".toList ++ n4.1)]
       let s13 := closeCur s12 ⟨n4.1, [], false⟩
       appendInst s13 [.s (n4.1 ++ ":".toList)]
     | some eb =>
       let n3 := stNewName n2.2 ("else".toList)
       let n4 := stNewName n3.2 ("if.end".toList)
       let s4 := appendInst n4.2 [.s "jump".toList, .s ("%".toList ++ n1.1)]
       let s5 := closeCur s4 ⟨n1.1, [], false⟩
       let s6 := appendInst s5 [.s (n1.1 ++ ":".toList)]
       let r := genExpr cond s6
       let s8 := appendInst r.1 [.s "cbranch".toList, .s r.2,
         .s ("%".toList ++ n2.1), .s ("%".toList ++ n3.1)]
       let s9 := closeCur s8 ⟨n2.1, [], false⟩
       let s10 := appendInst s9 [.s (n2.1 ++ ":".toList)]
       let s11 := genStmt thn s10
       let s12 := appendInst s11 [.s "jump".toList, .s ("%".toList ++ n4.1)]
       let s13 := closeCur s12 ⟨n3.1, [], false⟩
       let s14 := appendInst s13 [.s (n3.1 ++ ":".toList)]
       let s15 := genStmt eb s14
       let s16 := appendInst s15 [.s "jump".toList, .s ("%".toList ++ n4.1)]
       let s17 := closeCur s16 ⟨n4.1, [], false⟩
       appendInst s17 [.s (n4.1 ++ ":".toList)])
  | .swhile cond body, s =>
    let n1 := stNewName s ("while.cond".toList)
    let n2 := stNewName n1.2 ("while.stat".toList)
    let n3 := stNewName n2.2 ("while.end".toList)
    let s4 := appendInst n3.2 [.s "jump".toList, .s ("%".toList ++ n1.1)]
    let s5 := closeCur s4 ⟨n1.1, [], false⟩
    let s6 := appendInst s5 [.s (n1.1 ++ ":".toList)]
    let r := genExpr cond s6
    let s7 := appendInst r.1 [.s "cbranch".toList, .s r.2,
      .s ("%".toList ++ n2.1), .s ("%".toList ++ n3.1)]
    let s8 := closeCur s7 ⟨n2.1, [], false⟩
    let s9 := { s8 with loopPile := s8.loopPile ++ [n3.1] }
    let s10 := appendInst s9 [.s (n2.1 ++ ":".toList)]
    let s11 := genStmt body s10
    let s12 := appendInst s11 [.s "jump".toList, .s ("%".toList ++ n1.1)]
    let s13 := { s12 with loopPile := s12.loopPile.dropLast }
    let s14 := closeCur s13 ⟨n3.1, [], false⟩
    appendInst s14 [.s (n3.1 ++ ":".toList)]
  | .sfor ini cond inc body, s =>
    let n1 := stNewName s ("for.cond".toList)
    let n2 := stNewName n1.2 ("for.stat".toList)
    let n3 := stNewName n2.2 ("for.inc".toList)
    let n4 := stNewName n3.2 ("for.end".toList)
    let s5 := genStmt ini n4.2
    let s6 := appendInst s5 [.s "jump".toList, .s ("%".toList ++ n1.1)]
    let s7 := closeCur s6 ⟨n1.1, [], false⟩
    let s8 := appendInst s7 [.s (n1.1 ++ ":".toList)]
    let r := genExpr cond s8
    let s9 := appendInst r.1 [.s "cbranch".toList, .s r.2,
      .s ("%".toList ++ n2.1), .s ("%".toList ++ n4.1)]
    let s10 := closeCur s9 ⟨n2.1, [], false⟩
    let s11 := { s10 with loopPile := s10.loopPile ++ [n4.1] }
    let s12 := appendInst s11 [.s (n2.1 ++ ":".toList)]
    let s13 := genStmt body s12
    let s14 := appendInst s13 [.s "jump".toList, .s ("%".toList ++ n3.1)]
    let s15 := { s14 with loopPile := s14.loopPile.dropLast }
    let s16 := closeCur s15 ⟨n3.1, [], false⟩
    let s17 := appendInst s16 [.s (n3.1 ++ ":".toList)]
    let s18 := genStmt inc s17
    let s19 := appendInst s18 [.s "jump".toList, .s ("%".toList ++ n1.1)]
    let s20 := closeCur s19 ⟨n4.1, [], false⟩
    appendInst s20 [.s (n4.1 ++ ":".toList)]
  | .sassert e coord, s =>
    let n1 := stNewName s ("assert".toList)
    let n2 := stNewName n1.2 ("assert.fail".toList)
    let n3 := stNewName n2.2 ("assert.end".toList)
    let s4 := closeCur n3.2 ⟨n1.1, [], true⟩
    let r := genExpr e s4
    let s5 := appendInst r.1 [.s "cbranch".toList, .s r.2,
      .s ("%".toList ++ n3.1), .s ("%".toList ++ n2.1)]
    let m := new_text s5 ("str".toList)
    let s6 := { m.2 with text := m.2.text ++
      [[.s "global_string".toList, .s m.1,
        .s ("assertion_fail on".toList ++ coord)]] }
    let s7 := closeCur s6 ⟨n2.1, [], false⟩
    let s8 := appendInst s7 [.s (n2.1 ++ ":".toList)]
    let s9 := appendInst s8 [.s "print_string".toList, .s m.1]
    let s10 := appendInst s9 [.s "jump".toList, .s "%exit".toList]
    let s11 := closeCur s10 ⟨n3.1, [], false⟩
    appendInst s11 [.s (n3.1 ++ ":".toList)]

/-- `visit_Compound` / child lists. -/
def genStmts : List Stmt → CGState → CGState
  | [], s => s
  | st :: rest, s => genStmts rest (genStmt st s)

end

/-- `visit_FuncDef`: parameter lowering, `define`/`entry`, the return
slot, the body, the trailing `jump %exit` and the exit block. -/
def genFuncDef (name rettype : Str) (params : List (Str × Str)) (body : Stmt)
    (names0 : List (Str × Nat)) (globals0 : List Str) (globCount0 : Nat) :
    List CGBlock :=
  let pstep := params.foldl
    (fun (acc : List (Str × Str) × List Inst × Nat) p =>
      (acc.1 ++ [(p.1, "%".toList ++ natStr acc.2.2)],
       acc.2.1 ++
         [[.s ("alloc_".toList ++ p.1), .s ("%".toList ++ p.2)],
          [.s ("store_".toList ++ p.1), .s ("%".toList ++ natStr acc.2.2),
           .s ("%".toList ++ p.2)]],
       acc.2.2 + 1))
    ([], [], 1)
  let insts0 : List Inst :=
    [.s ("define_".toList ++ rettype), .s ("@".toList ++ name), .ps pstep.1] ::
    [.s "entry".toList] :: pstep.2.1
  let start :=
    if rettype = "void".toList then (insts0, ([] : Str), pstep.2.2)
    else
      (insts0 ++ [[.s ("alloc_".toList ++ rettype),
        .s ("%".toList ++ natStr pstep.2.2)]],
       "%".toList ++ natStr pstep.2.2, pstep.2.2 + 1)
  let s0 : CGState :=
    { blocks := [], cur := ⟨"%".toList ++ name, start.1, false⟩,
      tmp := start.2.2, names := names0, globCount := globCount0,
      text := [], globals := globals0, loopPile := [], retReg := start.2.1 }
  let s1 := genStmt body s0
  let s2 := appendInst s1 [.s "jump".toList, .s "%exit".toList]
  let exitB : CGBlock :=
    ⟨"%exit".toList,
     [[.s "exit:".toList],
      if rettype = "void".toList then [.s "return_void".toList]
      else [.s ("return_".toList ++ rettype), .s s0.retReg]],
     false⟩
  s2.blocks ++ [s2.cur, exitB]

end UC

namespace UC

/-! ### Block-shape predicates for the generated CFG -/

/-- A label-only instruction `(<name>:,)`: a 1-tuple whose string ends
in a colon. -/
def isLabelOnly (i : Inst) : Bool :=
  match i with
  | [.s s] =>
    match s.getLast? with
    | some c => decide (c = ':')
    | none => false
  | _ => false

/-- A terminator: `jump` or `cbranch`. -/
def isTermInst (i : Inst) : Bool :=
  if op0 i = "jump".toList then true
  else if op0 i = "cbranch".toList then true
  else false

def headLabelI (l : List Inst) : Bool :=
  match l.head? with
  | some i => isLabelOnly i
  | none => false

def endsTermI (l : List Inst) : Bool :=
  match l.getLast? with
  | some i => isTermInst i
  | none => false

def endsCbranchI (l : List Inst) : Bool :=
  match l.getLast? with
  | some i => decide (op0 i = "cbranch".toList)
  | none => false

def headDefineI (l : List Inst) : Bool :=
  match l.head? with
  | some i => startswith (op0 i) ("define_".toList)
  | none => false

def headLabel (b : CGBlock) : Bool := headLabelI b.insts
def endsTerm (b : CGBlock) : Bool := endsTermI b.insts
def endsCbranch (b : CGBlock) : Bool := endsCbranchI b.insts
def headDefine (b : CGBlock) : Bool := headDefineI b.insts

/-- Chain property at codegen boundaries: every completed block ends in
a terminator, except one immediately followed by an assert condition
block; the last completed block always ends in a terminator. -/
def ChainOK : List CGBlock → Prop
  | [] => True
  | [b] => endsTerm b = true
  | b :: b2 :: rest =>
    (endsTerm b = true ∨ b2.isAssertCond = true) ∧ ChainOK (b2 :: rest)

/-- Chain property of the finished CFG: as `ChainOK`, but the final
block (the exit block) is exempt. -/
def FinalChainOK : List CGBlock → Prop
  | [] => True
  | [_] => True
  | b :: b2 :: rest =>
    (endsTerm b = true ∨ b2.isAssertCond = true) ∧ FinalChainOK (b2 :: rest)

def headOK (b : CGBlock) : Prop := headLabel b = true ∨ b.isAssertCond = true

def firstBlock (s : CGState) : CGBlock := s.blocks.headD s.cur

/-- The generator-state invariant maintained between statements. -/
def Inv (s : CGState) : Prop :=
  ChainOK s.blocks ∧
  (∀ b ∈ s.blocks.drop 1, headOK b) ∧
  (s.blocks = [] ∨ headLabel s.cur = true) ∧
  s.cur.isAssertCond = false ∧
  (∀ b ∈ s.blocks, b.isAssertCond = true → endsCbranch b = true) ∧
  headDefine (firstBlock s) = true

def BlocksExt (s s' : CGState) : Prop := ∃ tl, s'.blocks = s.blocks ++ tl

theorem BlocksExt.rfl' (s : CGState) : BlocksExt s s := ⟨[], by simp⟩

theorem BlocksExt.trans' {s1 s2 s3 : CGState} (h1 : BlocksExt s1 s2)
    (h2 : BlocksExt s2 s3) : BlocksExt s1 s3 := by
  obtain ⟨t1, e1⟩ := h1
  obtain ⟨t2, e2⟩ := h2
  exact ⟨t1 ++ t2, by rw [e2, e1, List.append_assoc]⟩

theorem head?_append_ne {γ : Type} (l l' : List γ) (h : l ≠ []) :
    (l ++ l').head? = l.head? := by
  cases l with
  | nil => exact absurd rfl h
  | cons a t => rfl

theorem headLabelI_append (l l' : List Inst) (h : l ≠ []) :
    headLabelI (l ++ l') = headLabelI l := by
  unfold headLabelI
  rw [head?_append_ne l l' h]

theorem headDefineI_append (l l' : List Inst) (h : l ≠ []) :
    headDefineI (l ++ l') = headDefineI l := by
  unfold headDefineI
  rw [head?_append_ne l l' h]

theorem endsTermI_concat (l : List Inst) (i : Inst) :
    endsTermI (l ++ [i]) = isTermInst i := by
  unfold endsTermI
  rw [List.getLast?_concat]

theorem endsCbranchI_concat (l : List Inst) (i : Inst) :
    endsCbranchI (l ++ [i]) = decide (op0 i = "cbranch".toList) := by
  unfold endsCbranchI
  rw [List.getLast?_concat]

theorem isLabelOnly_label (nm : Str) :
    isLabelOnly [.s (nm ++ ":".toList)] = true := by
  show (match (nm ++ [':']).getLast? with
        | some c => decide (c = ':')
        | none => false) = true
  rw [List.getLast?_concat]
  rfl

theorem headLabelI_ne (l : List Inst) (h : headLabelI l = true) : l ≠ [] := by
  intro hnil
  rw [hnil] at h
  cases h

theorem headDefineI_ne (l : List Inst) (h : headDefineI l = true) : l ≠ [] := by
  intro hnil
  rw [hnil] at h
  cases h

theorem Inv_cur_ne (s : CGState) (h : Inv s) : s.cur.insts ≠ [] := by
  obtain ⟨_, _, h3, _, _, h6⟩ := h
  rcases h3 with h3 | h3
  · unfold firstBlock at h6
    rw [h3] at h6
    exact headDefineI_ne _ h6
  · exact headLabelI_ne _ h3

theorem startswith_append_self : ∀ (p x : Str), startswith (p ++ x) p = true := by
  intro p
  induction p with
  | nil => intro x; simp
  | cons c cs ih => intro x; simp [startswith, ih]

theorem ChainOK_append : ∀ (l : List CGBlock) (b : CGBlock),
    ChainOK l → endsTerm b = true → ChainOK (l ++ [b])
  | [], b, _, hb => hb
  | [x], b, hl, hb => ⟨Or.inl hl, hb⟩
  | x :: y :: t, b, hl, hb =>
    ⟨hl.1, ChainOK_append (y :: t) b hl.2 hb⟩

theorem ChainOK_append2 : ∀ (l : List CGBlock) (b1 b2 : CGBlock),
    ChainOK l → b2.isAssertCond = true → endsTerm b2 = true →
    ChainOK (l ++ [b1, b2])
  | [], b1, b2, _, hac, hb2 => ⟨Or.inr hac, hb2⟩
  | [x], b1, b2, hl, hac, hb2 => ⟨Or.inl hl, Or.inr hac, hb2⟩
  | x :: y :: t, b1, b2, hl, hac, hb2 =>
    ⟨hl.1, ChainOK_append2 (y :: t) b1 b2 hl.2 hac hb2⟩

theorem FinalChainOK_of : ∀ (l : List CGBlock) (b : CGBlock),
    ChainOK l → FinalChainOK (l ++ [b])
  | [], _, _ => trivial
  | [x], b, hl => ⟨Or.inl hl, trivial⟩
  | x :: y :: t, b, hl => ⟨hl.1, FinalChainOK_of (y :: t) b hl.2⟩

theorem drop1_append (l : List CGBlock) (b0 : CGBlock) (P : CGBlock → Prop)
    (hl : ∀ b ∈ l.drop 1, P b) (hb : l ≠ [] → P b0) :
    ∀ b ∈ (l ++ [b0]).drop 1, P b := by
  cases l with
  | nil => intro b hbm; simp at hbm
  | cons x t =>
    intro b hbm
    simp only [List.cons_append, List.drop_succ_cons, List.drop_zero] at hbm
    rcases List.mem_append.mp hbm with hm | hm
    · exact hl b (by simpa using hm)
    · rcases List.mem_singleton.mp hm with rfl
      exact hb (by simp)

theorem headD_append_ne {γ : Type} (l l' : List γ) (c : γ) (h : l ≠ []) :
    (l ++ l').headD c = l.headD c := by
  cases l with
  | nil => exact absurd rfl h
  | cons a t => rfl

end UC

namespace UC

theorem Inv_proj (s s' : CGState) (h : Inv s) (hb : s'.blocks = s.blocks)
    (hc : s'.cur = s.cur) : Inv s' := by
  unfold Inv firstBlock at h ⊢
  rw [hb, hc]
  exact h

theorem Inv_appendAny (s : CGState) (i : Inst) (h : Inv s) :
    Inv (appendInst s i) := by
  have hne := Inv_cur_ne s h
  obtain ⟨h1, h2, h3, h4, h5, h6⟩ := h
  refine ⟨h1, h2, ?_, h4, h5, ?_⟩
  · rcases h3 with h3 | h3
    · exact Or.inl h3
    · right
      show headLabelI (s.cur.insts ++ [i]) = true
      rw [headLabelI_append _ _ hne]
      exact h3
  · unfold firstBlock at h6 ⊢
    have hB : (appendInst s i).blocks = s.blocks := rfl
    rw [hB]
    cases hbe : s.blocks with
    | nil =>
      rw [hbe] at h6
      show headDefineI (s.cur.insts ++ [i]) = true
      rw [headDefineI_append _ _ hne]
      exact h6
    | cons x xs =>
      rw [hbe] at h6
      exact h6

theorem genExpr_spec (e : Expr) : ∀ (s : CGState),
    (genExpr e s).1.blocks = s.blocks ∧
    (genExpr e s).1.cur.label = s.cur.label ∧
    (genExpr e s).1.cur.isAssertCond = s.cur.isAssertCond ∧
    ∃ new, (genExpr e s).1.cur.insts = s.cur.insts ++ new := by
  induction e with
  | econst ty v =>
    intro s
    exact ⟨rfl, rfl, rfl, ⟨_, rfl⟩⟩
  | evar ty nm =>
    intro s
    exact ⟨rfl, rfl, rfl, ⟨_, rfl⟩⟩
  | ebin op ty l rr ihl ihr =>
    intro s
    obtain ⟨bl, ll, al, n1, e1⟩ := ihl s
    obtain ⟨br, lr, ar, n2, e2⟩ := ihr (genExpr l s).1
    refine ⟨?_, ?_, ?_, ?_⟩
    · show (genExpr rr (genExpr l s).1).1.blocks = s.blocks
      rw [br, bl]
    · show (genExpr rr (genExpr l s).1).1.cur.label = s.cur.label
      rw [lr, ll]
    · show (genExpr rr (genExpr l s).1).1.cur.isAssertCond = s.cur.isAssertCond
      rw [ar, al]
    · refine ⟨n1 ++ n2 ++ [[.s (binOpName op ++ "_".toList ++ exprTy l),
        .s (genExpr l s).2, .s (genExpr rr (genExpr l s).1).2,
        .s (new_temp (genExpr rr (genExpr l s).1).1).1]], ?_⟩
      show (genExpr rr (genExpr l s).1).1.cur.insts ++ _ = _
      rw [e2, e1]
      simp [List.append_assoc]

theorem Inv_genExpr (e : Expr) (s : CGState) (h : Inv s) :
    Inv (genExpr e s).1 ∧ (genExpr e s).1.blocks = s.blocks := by
  obtain ⟨hb, hlab, hac, new, hin⟩ := genExpr_spec e s
  have hne := Inv_cur_ne s h
  obtain ⟨h1, h2, h3, h4, h5, h6⟩ := h
  refine ⟨⟨?_, ?_, ?_, ?_, ?_, ?_⟩, hb⟩
  · rw [hb]; exact h1
  · rw [hb]; exact h2
  · rcases h3 with h3 | h3
    · exact Or.inl (by rw [hb]; exact h3)
    · right
      show headLabelI (genExpr e s).1.cur.insts = true
      rw [hin, headLabelI_append _ _ hne]
      exact h3
  · rw [hac]; exact h4
  · rw [hb]; exact h5
  · unfold firstBlock at h6 ⊢
    rw [hb]
    cases hbe : s.blocks with
    | nil =>
      rw [hbe] at h6
      show headDefineI (genExpr e s).1.cur.insts = true
      rw [hin, headDefineI_append _ _ hne]
      exact h6
    | cons x xs =>
      rw [hbe] at h6
      exact h6

theorem Inv_open (s s' : CGState) (h : Inv s) (t : Inst)
    (ht : isTermInst t = true) (lab : Str)
    (hb : s'.blocks = s.blocks ++
      [⟨s.cur.label, s.cur.insts ++ [t], s.cur.isAssertCond⟩])
    (hc : s'.cur = ⟨lab, [[.s (lab ++ ":".toList)]], false⟩) :
    Inv s' ∧ BlocksExt s s' := by
  have hne := Inv_cur_ne s h
  obtain ⟨h1, h2, h3, h4, h5, h6⟩ := h
  refine ⟨⟨?_, ?_, ?_, ?_, ?_, ?_⟩, ⟨_, hb⟩⟩
  · rw [hb]
    refine ChainOK_append _ _ h1 ?_
    show endsTermI (s.cur.insts ++ [t]) = true
    rw [endsTermI_concat]
    exact ht
  · rw [hb]
    refine drop1_append _ _ _ h2 ?_
    intro hneb
    rcases h3 with h3 | h3
    · exact absurd h3 hneb
    · left
      show headLabelI (s.cur.insts ++ [t]) = true
      rw [headLabelI_append _ _ hne]
      exact h3
  · right
    rw [hc]
    exact isLabelOnly_label lab
  · rw [hc]
  · rw [hb]
    intro b hbm hbac
    rcases List.mem_append.mp hbm with hm | hm
    · exact h5 b hm hbac
    · rcases List.mem_singleton.mp hm with rfl
      exact absurd hbac (by simp [h4])
  · unfold firstBlock at h6 ⊢
    rw [hb, hc]
    cases hbe : s.blocks with
    | nil =>
      rw [hbe] at h6
      show headDefineI (s.cur.insts ++ [t]) = true
      rw [headDefineI_append _ _ hne]
      exact h6
    | cons x xs =>
      rw [hbe] at h6
      exact h6

theorem Inv_assert (s s' : CGState) (h : Inv s)
    (condB failB : CGBlock) (lab : Str)
    (hcac : condB.isAssertCond = true)
    (hcend : endsCbranch condB = true)
    (hcterm : endsTerm condB = true)
    (hfl : headLabel failB = true)
    (hfac : failB.isAssertCond = false)
    (hfend : endsTerm failB = true)
    (hb : s'.blocks = s.blocks ++ [s.cur, condB, failB])
    (hc : s'.cur = ⟨lab, [[.s (lab ++ ":".toList)]], false⟩) :
    Inv s' ∧ BlocksExt s s' := by
  obtain ⟨h1, h2, h3, h4, h5, h6⟩ := h
  refine ⟨⟨?_, ?_, ?_, ?_, ?_, ?_⟩, ⟨_, hb⟩⟩
  · rw [hb]
    have he : s.blocks ++ [s.cur, condB, failB] =
        (s.blocks ++ [s.cur, condB]) ++ [failB] := by simp
    rw [he]
    exact ChainOK_append _ _ (ChainOK_append2 _ _ _ h1 hcac hcterm) hfend
  · rw [hb]
    have he : s.blocks ++ [s.cur, condB, failB] =
        ((s.blocks ++ [s.cur]) ++ [condB]) ++ [failB] := by simp
    rw [he]
    refine drop1_append _ _ _ (drop1_append _ _ _ (drop1_append _ _ _ h2 ?_)
      ?_) ?_
    · intro hneb
      rcases h3 with h3 | h3
      · exact absurd h3 hneb
      · exact Or.inl h3
    · intro _
      exact Or.inr hcac
    · intro _
      exact Or.inl hfl
  · right
    rw [hc]
    exact isLabelOnly_label lab
  · rw [hc]
  · rw [hb]
    intro b hbm hbac
    rcases List.mem_append.mp hbm with hm | hm
    · exact h5 b hm hbac
    · rcases List.mem_cons.mp hm with rfl | hm
      · exact absurd hbac (by simp [h4])
      · rcases List.mem_cons.mp hm with rfl | hm
        · exact hcend
        · rcases List.mem_singleton.mp hm with rfl
          exact absurd hbac (by simp [hfac])
  · unfold firstBlock at h6 ⊢
    rw [hb, hc]
    cases hbe : s.blocks with
    | nil =>
      rw [hbe] at h6
      exact h6
    | cons x xs =>
      rw [hbe] at h6
      exact h6

end UC

namespace UC

theorem BlocksExt_of_eq (s s' : CGState) (hb : s'.blocks = s.blocks) :
    BlocksExt s s' := ⟨[], by rw [hb, List.append_nil]⟩

mutual

theorem genStmt_inv : ∀ (st : Stmt) (s : CGState), Inv s →
    Inv (genStmt st s) ∧ BlocksExt s (genStmt st s)
  | .scompound items, s, h => genStmts_inv items s h
  | .svardecl ty nm, s, h =>
    ⟨Inv_appendAny s [.s ("alloc_".toList ++ ty), .s ("%".toList ++ nm)] h,
     BlocksExt_of_eq s _ rfl⟩
  | .sassign nm e, s, h =>
    have hh := Inv_genExpr e s h
    ⟨Inv_appendAny (genExpr e s).1 _ hh.1, BlocksExt_of_eq s _ hh.2⟩
  | .sprint e, s, h =>
    have hh := Inv_genExpr e s h
    ⟨Inv_appendAny (genExpr e s).1 _ hh.1, BlocksExt_of_eq s _ hh.2⟩
  | .sreturn none, s, h => ⟨h, BlocksExt.rfl' s⟩
  | .sreturn (some e), s, h =>
    have hh := Inv_genExpr e s h
    ⟨Inv_appendAny (genExpr e s).1 _ hh.1, BlocksExt_of_eq s _ hh.2⟩
  | .sbreak, s, h =>
    ⟨Inv_appendAny s
      [.s "jump".toList, .s ("%".toList ++ (s.loopPile.getLast?.getD []))] h,
     BlocksExt_of_eq s _ rfl⟩
  | .sif cond thn none, s, h => by
    let n1 := stNewName s ("if".toList)
    let n2 := stNewName n1.2 ("then".toList)
    let n4 := stNewName n2.2 ("if.end".toList)
    have h0 : Inv n4.2 := Inv_proj s n4.2 h rfl rfl
    let s6 := appendInst (closeCur (appendInst n4.2
      [.s "jump".toList, .s ("%".toList ++ n1.1)]) ⟨n1.1, [], false⟩)
      [.s (n1.1 ++ ":".toList)]
    obtain ⟨h6, e6⟩ := Inv_open n4.2 s6 h0
      [.s "jump".toList, .s ("%".toList ++ n1.1)] rfl n1.1 rfl rfl
    obtain ⟨h7, e7⟩ := Inv_genExpr cond s6 h6
    let r := genExpr cond s6
    let s10 := appendInst (closeCur (appendInst r.1
      [.s "cbranch".toList, .s r.2, .s ("%".toList ++ n2.1),
       .s ("%".toList ++ n4.1)]) ⟨n2.1, [], false⟩) [.s (n2.1 ++ ":".toList)]
    obtain ⟨h10, e10⟩ := Inv_open r.1 s10 h7
      [.s "cbranch".toList, .s r.2, .s ("%".toList ++ n2.1),
       .s ("%".toList ++ n4.1)] rfl n2.1 rfl rfl
    obtain ⟨h11, e11⟩ := genStmt_inv thn s10 h10
    let s11 := genStmt thn s10
    let fin := appendInst (closeCur (appendInst s11
      [.s "jump".toList, .s ("%".toList ++ n4.1)]) ⟨n4.1, [], false⟩)
      [.s (n4.1 ++ ":".toList)]
    obtain ⟨hf, ef⟩ := Inv_open s11 fin h11
      [.s "jump".toList, .s ("%".toList ++ n4.1)] rfl n4.1 rfl rfl
    refine ⟨hf, ?_⟩
    exact BlocksExt.trans' (BlocksExt.trans' (BlocksExt.trans'
      (BlocksExt.trans' (BlocksExt_of_eq s n4.2 rfl) e6)
      (BlocksExt_of_eq s6 r.1 e7)) e10) (BlocksExt.trans' e11 ef)
  | .sif cond thn (some eb), s, h => by
    let n1 := stNewName s ("if".toList)
    let n2 := stNewName n1.2 ("then".toList)
    let n3 := stNewName n2.2 ("else".toList)
    let n4 := stNewName n3.2 ("if.end".toList)
    have h0 : Inv n4.2 := Inv_proj s n4.2 h rfl rfl
    let s6 := appendInst (closeCur (appendInst n4.2
      [.s "jump".toList, .s ("%".toList ++ n1.1)]) ⟨n1.1, [], false⟩)
      [.s (n1.1 ++ ":".toList)]
    obtain ⟨h6, e6⟩ := Inv_open n4.2 s6 h0
      [.s "jump".toList, .s ("%".toList ++ n1.1)] rfl n1.1 rfl rfl
    obtain ⟨h7, e7⟩ := Inv_genExpr cond s6 h6
    let r := genExpr cond s6
    let s10 := appendInst (closeCur (appendInst r.1
      [.s "cbranch".toList, .s r.2, .s ("%".toList ++ n2.1),
       .s ("%".toList ++ n3.1)]) ⟨n2.1, [], false⟩) [.s (n2.1 ++ ":".toList)]
    obtain ⟨h10, e10⟩ := Inv_open r.1 s10 h7
      [.s "cbranch".toList, .s r.2, .s ("%".toList ++ n2.1),
       .s ("%".toList ++ n3.1)] rfl n2.1 rfl rfl
    obtain ⟨h11, e11⟩ := genStmt_inv thn s10 h10
    let s11 := genStmt thn s10
    let s14 := appendInst (closeCur (appendInst s11
      [.s "jump".toList, .s ("%".toList ++ n4.1)]) ⟨n3.1, [], false⟩)
      [.s (n3.1 ++ ":".toList)]
    obtain ⟨h14, e14⟩ := Inv_open s11 s14 h11
      [.s "jump".toList, .s ("%".toList ++ n4.1)] rfl n3.1 rfl rfl
    obtain ⟨h15, e15⟩ := genStmt_inv eb s14 h14
    let s15 := genStmt eb s14
    let fin := appendInst (closeCur (appendInst s15
      [.s "jump".toList, .s ("%".toList ++ n4.1)]) ⟨n4.1, [], false⟩)
      [.s (n4.1 ++ ":".toList)]
    obtain ⟨hf, ef⟩ := Inv_open s15 fin h15
      [.s "jump".toList, .s ("%".toList ++ n4.1)] rfl n4.1 rfl rfl
    refine ⟨hf, ?_⟩
    exact BlocksExt.trans' (BlocksExt.trans' (BlocksExt.trans'
      (BlocksExt.trans' (BlocksExt.trans' (BlocksExt.trans'
        (BlocksExt_of_eq s n4.2 rfl) e6) (BlocksExt_of_eq s6 r.1 e7)) e10)
      (BlocksExt.trans' e11 e14)) e15) ef
  | .swhile cond body, s, h => by
    let n1 := stNewName s ("while.cond".toList)
    let n2 := stNewName n1.2 ("while.stat".toList)
    let n3 := stNewName n2.2 ("while.end".toList)
    have h0 : Inv n3.2 := Inv_proj s n3.2 h rfl rfl
    let s6 := appendInst (closeCur (appendInst n3.2
      [.s "jump".toList, .s ("%".toList ++ n1.1)]) ⟨n1.1, [], false⟩)
      [.s (n1.1 ++ ":".toList)]
    obtain ⟨h6, e6⟩ := Inv_open n3.2 s6 h0
      [.s "jump".toList, .s ("%".toList ++ n1.1)] rfl n1.1 rfl rfl
    obtain ⟨h7, e7⟩ := Inv_genExpr cond s6 h6
    let r := genExpr cond s6
    let s8 := closeCur (appendInst r.1
      [.s "cbranch".toList, .s r.2, .s ("%".toList ++ n2.1),
       .s ("%".toList ++ n3.1)]) ⟨n2.1, [], false⟩
    let s10 := appendInst { s8 with loopPile := s8.loopPile ++ [n3.1] }
      [.s (n2.1 ++ ":".toList)]
    obtain ⟨h10, e10⟩ := Inv_open r.1 s10 h7
      [.s "cbranch".toList, .s r.2, .s ("%".toList ++ n2.1),
       .s ("%".toList ++ n3.1)] rfl n2.1 rfl rfl
    obtain ⟨h11, e11⟩ := genStmt_inv body s10 h10
    let s11 := genStmt body s10
    let s12 := appendInst s11 [.s "jump".toList, .s ("%".toList ++ n1.1)]
    let fin := appendInst (closeCur
      { s12 with loopPile := s12.loopPile.dropLast } ⟨n3.1, [], false⟩)
      [.s (n3.1 ++ ":".toList)]
    obtain ⟨hf, ef⟩ := Inv_open s11 fin h11
      [.s "jump".toList, .s ("%".toList ++ n1.1)] rfl n3.1 rfl rfl
    refine ⟨hf, ?_⟩
    exact BlocksExt.trans' (BlocksExt.trans' (BlocksExt.trans'
      (BlocksExt.trans' (BlocksExt_of_eq s n3.2 rfl) e6)
      (BlocksExt_of_eq s6 r.1 e7)) e10) (BlocksExt.trans' e11 ef)
  | .sfor ini cond inc body, s, h => by
    let n1 := stNewName s ("for.cond".toList)
    let n2 := stNewName n1.2 ("for.stat".toList)
    let n3 := stNewName n2.2 ("for.inc".toList)
    let n4 := stNewName n3.2 ("for.end".toList)
    have h0 : Inv n4.2 := Inv_proj s n4.2 h rfl rfl
    obtain ⟨h5, e5⟩ := genStmt_inv ini n4.2 h0
    let s5 := genStmt ini n4.2
    let s8 := appendInst (closeCur (appendInst s5
      [.s "jump".toList, .s ("%".toList ++ n1.1)]) ⟨n1.1, [], false⟩)
      [.s (n1.1 ++ ":".toList)]
    obtain ⟨h8, e8⟩ := Inv_open s5 s8 h5
      [.s "jump".toList, .s ("%".toList ++ n1.1)] rfl n1.1 rfl rfl
    obtain ⟨h9, e9⟩ := Inv_genExpr cond s8 h8
    let r := genExpr cond s8
    let s10 := closeCur (appendInst r.1
      [.s "cbranch".toList, .s r.2, .s ("%".toList ++ n2.1),
       .s ("%".toList ++ n4.1)]) ⟨n2.1, [], false⟩
    let s12 := appendInst { s10 with loopPile := s10.loopPile ++ [n4.1] }
      [.s (n2.1 ++ ":".toList)]
    obtain ⟨h12, e12⟩ := Inv_open r.1 s12 h9
      [.s "cbranch".toList, .s r.2, .s ("%".toList ++ n2.1),
       .s ("%".toList ++ n4.1)] rfl n2.1 rfl rfl
    obtain ⟨h13, e13⟩ := genStmt_inv body s12 h12
    let s13 := genStmt body s12
    let s14 := appendInst s13 [.s "jump".toList, .s ("%".toList ++ n3.1)]
    let s17 := appendInst (closeCur
      { s14 with loopPile := s14.loopPile.dropLast } ⟨n3.1, [], false⟩)
      [.s (n3.1 ++ ":".toList)]
    obtain ⟨h17, e17⟩ := Inv_open s13 s17 h13
      [.s "jump".toList, .s ("%".toList ++ n3.1)] rfl n3.1 rfl rfl
    obtain ⟨h18, e18⟩ := genStmt_inv inc s17 h17
    let s18 := genStmt inc s17
    let fin := appendInst (closeCur (appendInst s18
      [.s "jump".toList, .s ("%".toList ++ n1.1)]) ⟨n4.1, [], false⟩)
      [.s (n4.1 ++ ":".toList)]
    obtain ⟨hf, ef⟩ := Inv_open s18 fin h18
      [.s "jump".toList, .s ("%".toList ++ n1.1)] rfl n4.1 rfl rfl
    refine ⟨hf, ?_⟩
    exact BlocksExt.trans' (BlocksExt.trans' (BlocksExt.trans'
      (BlocksExt.trans' (BlocksExt.trans' (BlocksExt.trans'
        (BlocksExt.trans' (BlocksExt.trans'
          (BlocksExt_of_eq s n4.2 rfl) e5) e8)
        (BlocksExt_of_eq s8 r.1 e9)) e12) e13) e17) e18) ef
  | .sassert e coord, s, h => by
    let n1 := stNewName s ("assert".toList)
    let n2 := stNewName n1.2 ("assert.fail".toList)
    let n3 := stNewName n2.2 ("assert.end".toList)
    have h0 : Inv n3.2 := Inv_proj s n3.2 h rfl rfl
    let s4 := closeCur n3.2 ⟨n1.1, [], true⟩
    have hs := genExpr_spec e s4
    let r := genExpr e s4
    let cbr : Inst := [.s "cbranch".toList, .s r.2,
      .s ("%".toList ++ n3.1), .s ("%".toList ++ n2.1)]
    let condB : CGBlock :=
      ⟨r.1.cur.label, r.1.cur.insts ++ [cbr], r.1.cur.isAssertCond⟩
    let m := new_text (appendInst r.1 cbr) ("str".toList)
    let failB : CGBlock := ⟨n2.1,
      [[.s (n2.1 ++ ":".toList)], [.s "print_string".toList, .s m.1],
       [.s "jump".toList, .s "%exit".toList]], false⟩
    let s6 : CGState := { m.2 with text := m.2.text ++
      [[.s "global_string".toList, .s m.1,
        .s ("assertion_fail on".toList ++ coord)]] }
    let fin := appendInst (closeCur (appendInst (appendInst (appendInst
      (closeCur s6 ⟨n2.1, [], false⟩)
      [.s (n2.1 ++ ":".toList)]) [.s "print_string".toList, .s m.1])
      [.s "jump".toList, .s "%exit".toList]) ⟨n3.1, [], false⟩)
      [.s (n3.1 ++ ":".toList)]
    have hb : fin.blocks = n3.2.blocks ++ [n3.2.cur, condB, failB] := by
      show (genExpr e s4).1.blocks ++ [condB] ++ [failB] =
        n3.2.blocks ++ [n3.2.cur, condB, failB]
      rw [hs.1]
      show (n3.2.blocks ++ [n3.2.cur]) ++ [condB] ++ [failB] =
        n3.2.blocks ++ [n3.2.cur, condB, failB]
      simp
    have hcac : condB.isAssertCond = true := hs.2.2.1
    have hcend : endsCbranch condB = true := by
      show endsCbranchI (r.1.cur.insts ++ [cbr]) = true
      rw [endsCbranchI_concat]
      rfl
    have hcterm : endsTerm condB = true := by
      show endsTermI (r.1.cur.insts ++ [cbr]) = true
      rw [endsTermI_concat]
      rfl
    have hfl : headLabel failB = true := isLabelOnly_label n2.1
    obtain ⟨hf, ef⟩ := Inv_assert n3.2 fin h0 condB failB n3.1
      hcac hcend hcterm hfl rfl rfl hb rfl
    exact ⟨hf, BlocksExt.trans' (BlocksExt_of_eq s n3.2 rfl) ef⟩

theorem genStmts_inv : ∀ (l : List Stmt) (s : CGState), Inv s →
    Inv (genStmts l s) ∧ BlocksExt s (genStmts l s)
  | [], s, h => ⟨h, BlocksExt.rfl' s⟩
  | st :: rest, s, h => by
    obtain ⟨h1, e1⟩ := genStmt_inv st s h
    obtain ⟨h2, e2⟩ := genStmts_inv rest (genStmt st s) h1
    exact ⟨h2, BlocksExt.trans' e1 e2⟩

end

end UC

namespace UC

/-- The block-shape property exactly as the claim words it: every block
of the chain begins with a label-only instruction and contains exactly
one terminator, which is its last instruction. -/
def claimC3 (chain : List CGBlock) : Prop :=
  ∀ b ∈ chain, headLabel b = true ∧
    (b.insts.filter isTermInst).length = 1 ∧ endsTerm b = true

end UC

namespace UC

/-- C3 (amended): in every CFG produced by `genFuncDef`, the first
block starts with the `define_` instruction (not a label), the last
block is the `%exit` block whose final instruction is a `return_*`
(not a terminator), every other block either begins with a label-only
instruction or is an assert condition block, every block except the
final exit block ends in a terminator unless it is immediately
followed by an assert condition block, and every assert condition
block ends in a `cbranch`. -/
theorem cfg_block_shape_amended (name rettype : Str)
    (params : List (Str × Str)) (body : Stmt) (names0 : List (Str × Nat))
    (globals0 : List Str) (globCount0 : Nat) :
    (∃ b0 rest,
      genFuncDef name rettype params body names0 globals0 globCount0 =
        b0 :: rest ∧ headDefine b0 = true) ∧
    (∃ ri,
      (genFuncDef name rettype params body names0 globals0
        globCount0).getLast? =
        some ⟨"%exit".toList, [[.s ("exit:".toList)], ri], false⟩ ∧
      startswith (op0 ri) ("return".toList) = true ∧
      isTermInst ri = false) ∧
    FinalChainOK
      (genFuncDef name rettype params body names0 globals0 globCount0) ∧
    (∀ b ∈ (genFuncDef name rettype params body names0 globals0
        globCount0).drop 1,
      headLabel b = true ∨ b.isAssertCond = true) ∧
    (∀ b ∈ genFuncDef name rettype params body names0 globals0 globCount0,
      b.isAssertCond = true → endsCbranch b = true) := by
  let pstep := params.foldl
    (fun (acc : List (Str × Str) × List Inst × Nat) p =>
      (acc.1 ++ [(p.1, "%".toList ++ natStr acc.2.2)],
       acc.2.1 ++
         [[.s ("alloc_".toList ++ p.1), .s ("%".toList ++ p.2)],
          [.s ("store_".toList ++ p.1), .s ("%".toList ++ natStr acc.2.2),
           .s ("%".toList ++ p.2)]],
       acc.2.2 + 1))
    ([], [], 1)
  let insts0 : List Inst :=
    [.s ("define_".toList ++ rettype), .s ("@".toList ++ name), .ps pstep.1] ::
    [.s "entry".toList] :: pstep.2.1
  let s0 : CGState :=
    { blocks := [],
      cur := ⟨"%".toList ++ name,
        (if rettype = "void".toList then (insts0, ([] : Str), pstep.2.2)
         else
           (insts0 ++ [[.s ("alloc_".toList ++ rettype),
             .s ("%".toList ++ natStr pstep.2.2)]],
            "%".toList ++ natStr pstep.2.2, pstep.2.2 + 1)).1, false⟩,
      tmp := (if rettype = "void".toList then (insts0, ([] : Str), pstep.2.2)
         else
           (insts0 ++ [[.s ("alloc_".toList ++ rettype),
             .s ("%".toList ++ natStr pstep.2.2)]],
            "%".toList ++ natStr pstep.2.2, pstep.2.2 + 1)).2.2,
      names := names0, globCount := globCount0, text := [],
      globals := globals0, loopPile := [],
      retReg := (if rettype = "void".toList then
           (insts0, ([] : Str), pstep.2.2)
         else
           (insts0 ++ [[.s ("alloc_".toList ++ rettype),
             .s ("%".toList ++ natStr pstep.2.2)]],
            "%".toList ++ natStr pstep.2.2, pstep.2.2 + 1)).2.1 }
  have hd0 : headDefineI s0.cur.insts = true := by
    show headDefineI
      (if rettype = "void".toList then (insts0, ([] : Str), pstep.2.2)
       else
         (insts0 ++ [[.s ("alloc_".toList ++ rettype),
           .s ("%".toList ++ natStr pstep.2.2)]],
          "%".toList ++ natStr pstep.2.2, pstep.2.2 + 1)).1 = true
    split
    · exact startswith_append_self ("define_".toList) rettype
    · exact startswith_append_self ("define_".toList) rettype
  have h0 : Inv s0 := by
    refine ⟨trivial, ?_, Or.inl rfl, rfl, ?_, hd0⟩
    · intro b hb
      simp at hb
    · intro b hb
      simp at hb
  obtain ⟨h1, e1⟩ := genStmt_inv body s0 h0
  let s1 := genStmt body s0
  have hcne := Inv_cur_ne s1 h1
  let s2 := appendInst s1 [.s "jump".toList, .s "%exit".toList]
  have h2s : endsTerm s2.cur = true := by
    show endsTermI
      (s1.cur.insts ++ [[.s "jump".toList, .s "%exit".toList]]) = true
    rw [endsTermI_concat]
    rfl
  let ri : Inst :=
    if rettype = "void".toList then [.s "return_void".toList]
    else [.s ("return_".toList ++ rettype), .s s0.retReg]
  let exitB : CGBlock := ⟨"%exit".toList, [[.s "exit:".toList], ri], false⟩
  have hchain : genFuncDef name rettype params body names0 globals0
      globCount0 = (s1.blocks ++ [s2.cur]) ++ [exitB] := by
    show s1.blocks ++ [s2.cur, exitB] = (s1.blocks ++ [s2.cur]) ++ [exitB]
    simp
  refine ⟨?_, ?_, ?_, ?_, ?_⟩
  · cases hbe : s1.blocks with
    | nil =>
      refine ⟨s2.cur, [exitB], ?_, ?_⟩
      · rw [hchain, hbe]
        rfl
      · show headDefineI
          (s1.cur.insts ++ [[.s "jump".toList, .s "%exit".toList]]) = true
        rw [headDefineI_append _ _ hcne]
        have h6 := h1.2.2.2.2.2
        unfold firstBlock at h6
        rw [hbe] at h6
        exact h6
    | cons x xs =>
      refine ⟨x, (xs ++ [s2.cur]) ++ [exitB], ?_, ?_⟩
      · rw [hchain, hbe]
        simp
      · have h6 := h1.2.2.2.2.2
        unfold firstBlock at h6
        rw [hbe] at h6
        exact h6
  · refine ⟨ri, ?_, ?_, ?_⟩
    · rw [hchain]
      rw [List.getLast?_concat]
    · show startswith
        (op0 (if rettype = "void".toList then
            ([.s "return_void".toList] : Inst)
          else [.s ("return_".toList ++ rettype), .s s0.retReg]))
        ("return".toList) = true
      split
      · rfl
      · exact startswith_append_self ("return".toList) ("_".toList ++ rettype)
    · show isTermInst
        (if rettype = "void".toList then ([.s "return_void".toList] : Inst)
         else [.s ("return_".toList ++ rettype), .s s0.retReg]) = false
      split
      · rfl
      · rfl
  · rw [hchain]
    exact FinalChainOK_of _ exitB
      (ChainOK_append s1.blocks s2.cur h1.1 h2s)
  · rw [hchain]
    refine drop1_append _ _ _ (drop1_append _ _ _ h1.2.1 ?_) ?_
    · intro hne
      rcases h1.2.2.1 with h3 | h3
      · exact absurd h3 hne
      · left
        show headLabelI
          (s1.cur.insts ++ [[.s "jump".toList, .s "%exit".toList]]) = true
        rw [headLabelI_append _ _ hcne]
        exact h3
    · intro _
      left
      exact isLabelOnly_label ("exit".toList)
  · rw [hchain]
    intro b hb hac
    rcases List.mem_append.mp hb with hm | hm
    · rcases List.mem_append.mp hm with hm2 | hm2
      · exact h1.2.2.2.2.1 b hm2 hac
      · rcases List.mem_singleton.mp hm2 with rfl
        have hf : s1.cur.isAssertCond = false := h1.2.2.2.1
        exact absurd
          (hf.symm.trans (show s1.cur.isAssertCond = true from hac))
          Bool.false_ne_true
    · rcases List.mem_singleton.mp hm with rfl
      exact absurd hac Bool.false_ne_true

end UC

namespace UC

set_option maxRecDepth 40000 in
/-- C3 counterexample: the chain generated for an empty void function
already violates the claim (its first block starts with `define_void`,
not a label, and the exit block contains no terminator); an assert
produces a condition block with no leading label; a `while` with a
`break` produces a block with two `jump` terminators. -/
theorem cfg_block_shape_counterexample :
    ¬ claimC3 (genFuncDef ("f".toList) ("void".toList) [] (.scompound [])
      [] [] 0) ∧
    (∃ b ∈ genFuncDef ("g".toList) ("void".toList) []
        (.sassert (.econst ("int".toList) 1) (" 1:1".toList)) [] [] 0,
      headLabel b = false ∧ b.isAssertCond = true) ∧
    (∃ b ∈ genFuncDef ("h".toList) ("void".toList) []
        (.swhile (.econst ("int".toList) 1) .sbreak) [] [] 0,
      (b.insts.filter isTermInst).length = 2) := by
  unfold claimC3
  decide

/-- C3 witness: the amended block-shape theorem applied at a concrete
one-statement function. -/
theorem cfg_block_shape_amended_witness :
    FinalChainOK (genFuncDef ("w".toList) ("int".toList) []
      (.sreturn (some (.econst ("int".toList) 1))) [] [] 0) :=
  (cfg_block_shape_amended ("w".toList) ("int".toList) []
    (.sreturn (some (.econst ("int".toList) 1))) [] [] 0).2.2.1

/-- C1: `visit_Return` stores the returned value into the return slot
but emits no `jump %exit` (the jump line is commented out in the
source): lowering `return e` leaves the block chain unchanged and only
appends to the current block the expression code followed by a single
`store_<T>` into the return slot, and the resulting block does not end
in a terminator, so control falls through instead of transferring to
the function's exit block. -/
theorem return_lowering_omits_jump_exit (e : Expr) (s : CGState) :
    (genStmt (.sreturn (some e)) s).blocks = s.blocks ∧
    (genStmt (.sreturn (some e)) s).cur.insts =
      (genExpr e s).1.cur.insts ++
      [[.s ("store_".toList ++ exprTy e), .s (genExpr e s).2,
        .s s.retReg]] ∧
    endsTerm (genStmt (.sreturn (some e)) s).cur = false := by
  refine ⟨(genExpr_spec e s).1, rfl, ?_⟩
  show endsTermI ((genExpr e s).1.cur.insts ++
    [[.s ("store_".toList ++ exprTy e), .s (genExpr e s).2,
      .s s.retReg]]) = false
  rw [endsTermI_concat]
  rfl

end UC
